/-
  Verification of the parquet-variant builder (src/parquet-variant/src/builder.rs).

  The development shallowly embeds the builder subsystem: byte buffers become
  List Nat (each element a byte value), the field-name dictionary becomes a
  MetadataBuilder structure, and the mutable-reference structure of the Rust
  builders (ParentState, ListBuilder, ObjectBuilder) is modelled by explicit
  state passing.  Machine integers are modelled as Nat / Int with explicit
  truncation (% 256, % 2 ^ 32) exactly where the Rust code casts.
-/
import Mathlib

set_option maxHeartbeats 1000000
set_option maxRecDepth 4096

namespace VariantSpec

/-! ### Little-endian byte strings

Models of Rust to_le_bytes truncated to the first n bytes, as used by
write_offset in builder.rs. -/

/-- Little-endian encoding of the low n bytes of a natural number.
Models write_offset in builder.rs: value.to_le_bytes() truncated to nbytes. -/
def leBytes : Nat → Nat → List Nat
  | _, 0 => []
  | v, n + 1 => v % 256 :: leBytes (v / 256) n

@[simp] theorem leBytes_zero (v : Nat) : leBytes v 0 = [] := rfl

@[simp] theorem leBytes_succ (v n : Nat) :
    leBytes v (n + 1) = v % 256 :: leBytes (v / 256) n := rfl

@[simp] theorem length_leBytes (v n : Nat) : (leBytes v n).length = n := by
  induction n generalizing v with
  | zero => rfl
  | succ n ih => simp [leBytes, ih]

/-- Little-endian encoding of a signed integer as its two's complement low
n bytes; models (i as uN).to_le_bytes() for the signed appenders. -/
def intLeBytes (v : Int) (n : Nat) : List Nat :=
  leBytes (v % ((2 : Int) ^ (8 * n))).toNat n

/-! ### UTF-8 byte model for strings

Rust str values are UTF-8 byte sequences; str::len and the byte content of a
string use that encoding.  We model the byte sequence of a Lean String by the
standard UTF-8 encoding of its characters. -/

/-- UTF-8 encoding of a single character (as byte values). -/
def utf8EncodeCharNat (c : Char) : List Nat :=
  let v := c.toNat
  if v < 0x80 then [v]
  else if v < 0x800 then
    [0xC0 ||| (v >>> 6), 0x80 ||| (v &&& 0x3F)]
  else if v < 0x10000 then
    [0xE0 ||| (v >>> 12), 0x80 ||| ((v >>> 6) &&& 0x3F), 0x80 ||| (v &&& 0x3F)]
  else
    [0xF0 ||| (v >>> 18), 0x80 ||| ((v >>> 12) &&& 0x3F),
      0x80 ||| ((v >>> 6) &&& 0x3F), 0x80 ||| (v &&& 0x3F)]

/-- The bytes of a string (Rust str contents, UTF-8). -/
def strBytes (s : String) : List Nat :=
  s.data.flatMap utf8EncodeCharNat

/-- Rust str::len — the number of UTF-8 bytes of the string. -/
def rustLen (s : String) : Nat :=
  (strBytes s).length

/-- Lexicographic comparison of character lists by code point.  For valid
UTF-8 this coincides with the byte-wise lexicographic order that Rust str
comparison uses. -/
def charListLt : List Char → List Char → Bool
  | _, [] => false
  | [], _ :: _ => true
  | a :: as, b :: bs =>
    if a.toNat < b.toNat then true
    else if b.toNat < a.toNat then false
    else charListLt as bs

/-- The strict order on strings used by the Rust code (str Ord). -/
def strLt (a b : String) : Bool :=
  charListLt a.data b.data

/-- The reflexive order on strings: a comes no later than b. -/
def strLe (a b : String) : Bool :=
  !strLt b a

theorem charListLt_irrefl : ∀ l : List Char, charListLt l l = false := by
  intro l
  induction l with
  | nil => rfl
  | cons a as ih => simp [charListLt, ih]

theorem charListLt_asymm : ∀ l l' : List Char,
    charListLt l l' = true → charListLt l' l = false := by
  intro l
  induction l with
  | nil =>
    intro l' _
    cases l' <;> rfl
  | cons a as ih =>
    intro l' h
    cases l' with
    | nil => simp [charListLt] at h
    | cons b bs =>
      rw [charListLt] at h ⊢
      by_cases hab : a.toNat < b.toNat
      · rw [if_neg (by omega), if_pos hab]
      · rw [if_neg hab] at h
        by_cases hba : b.toNat < a.toNat
        · rw [if_pos hba] at h
          exact absurd h (by simp)
        · rw [if_neg hba] at h
          rw [if_neg hba, if_neg hab]
          exact ih bs h

theorem charListLt_connex : ∀ l l' : List Char,
    charListLt l l' = false → charListLt l' l = false → l = l' := by
  intro l
  induction l with
  | nil =>
    intro l' h _
    cases l' with
    | nil => rfl
    | cons b bs => simp [charListLt] at h
  | cons a as ih =>
    intro l' h h'
    cases l' with
    | nil => simp [charListLt] at h'
    | cons b bs =>
      rw [charListLt] at h h'
      by_cases hab : a.toNat < b.toNat
      · rw [if_pos hab] at h
        exact absurd h (by simp)
      · rw [if_neg hab] at h
        by_cases hba : b.toNat < a.toNat
        · rw [if_pos hba] at h'
          exact absurd h' (by simp)
        · rw [if_neg hba] at h
          rw [if_neg hba, if_neg hab] at h'
          have hchar : a = b := Char.ext (UInt32.ext (show a.toNat = b.toNat by omega))
          rw [hchar, ih bs h h']

theorem strLt_irrefl (a : String) : strLt a a = false :=
  charListLt_irrefl a.data

theorem strLt_asymm {a b : String} (h : strLt a b = true) : strLt b a = false :=
  charListLt_asymm a.data b.data h

theorem strLt_connex {a b : String} (h : strLt a b = false)
    (h' : strLt b a = false) : a = b := by
  have := charListLt_connex a.data b.data h h'
  cases a; cases b
  exact congrArg String.mk this

theorem strLe_total (a b : String) : strLe a b = true ∨ strLe b a = true := by
  unfold strLe
  by_cases h : strLt b a = true
  · right
    rw [strLt_asymm h]
    rfl
  · left
    simp only [Bool.not_eq_true] at h
    rw [h]
    rfl

theorem strLe_of_strLt {a b : String} (h : strLt a b = true) : strLe a b = true := by
  unfold strLe
  rw [strLt_asymm h]
  rfl

theorem strLt_of_strLe_of_ne {a b : String} (h : strLe a b = true) (hne : a ≠ b) :
    strLt a b = true := by
  unfold strLe at h
  by_cases hl : strLt a b = true
  · exact hl
  · simp only [Bool.not_eq_true] at hl
    rw [Bool.not_eq_true'] at h
    exact absurd (strLt_connex hl h) hne

/-! ### Stable sort

Both indexmap's IndexMap::sort_by and slice::sort_by_key in Rust are stable
sorts; we model them with a stable insertion sort. -/

/-- Insert x into l, placing it before the first element y with le x y.
For a total preorder le this realizes a stable sort step. -/
def insertLe (le : α → α → Bool) (x : α) : List α → List α
  | [] => [x]
  | y :: ys => if le x y then x :: y :: ys else y :: insertLe le x ys

/-- Stable insertion sort with respect to the boolean preorder le. -/
def stableSortBy (le : α → α → Bool) : List α → List α
  | [] => []
  | x :: xs => insertLe le x (stableSortBy le xs)

theorem insertLe_perm (le : α → α → Bool) (x : α) (l : List α) :
    (insertLe le x l).Perm (x :: l) := by
  induction l with
  | nil => simp [insertLe]
  | cons y ys ih =>
    by_cases h : le x y = true
    · simp [insertLe, h]
    · simp only [insertLe, h, if_false]
      exact (ih.cons y).trans (List.Perm.swap x y ys)

theorem stableSortBy_perm (le : α → α → Bool) (l : List α) :
    (stableSortBy le l).Perm l := by
  induction l with
  | nil => simp [stableSortBy]
  | cons x xs ih =>
    exact (insertLe_perm le x (stableSortBy le xs)).trans (ih.cons x)

theorem mem_stableSortBy {le : α → α → Bool} {x : α} {l : List α} :
    x ∈ stableSortBy le l ↔ x ∈ l :=
  (stableSortBy_perm le l).mem_iff

theorem sizeOf_perm_eq [SizeOf α] {l l' : List α} (h : l.Perm l') :
    sizeOf l = sizeOf l' := by
  induction h with
  | nil => rfl
  | cons x _ ih => simp [ih]
  | swap x y l => simp; omega
  | trans _ _ ih1 ih2 => omega

theorem sizeOf_stableSortBy [SizeOf α] (le : α → α → Bool) (l : List α) :
    sizeOf (stableSortBy le l) = sizeOf l :=
  sizeOf_perm_eq (stableSortBy_perm le l)

/-- Sortedness of the output of insertLe, for a total boolean preorder. -/
theorem insertLe_sorted (le : α → α → Bool)
    (htotal : ∀ a b, le a b = true ∨ le b a = true) (x : α) (l : List α)
    (hl : l.Chain' (fun a b => le a b = true)) :
    (insertLe le x l).Chain' (fun a b => le a b = true) := by
  induction l with
  | nil => simp [insertLe]
  | cons y ys ih =>
    rw [insertLe]
    by_cases h : le x y = true
    · rw [if_pos h]
      exact hl.cons h
    · rw [if_neg h]
      have hyx : le y x = true := (htotal x y).resolve_left h
      refine List.chain'_cons'.mpr ⟨?_, ih hl.tail⟩
      intro z hz
      cases ys with
      | nil =>
        simp [insertLe] at hz
        subst hz; exact hyx
      | cons w ws =>
        rw [insertLe] at hz
        by_cases hxw : le x w = true
        · rw [if_pos hxw] at hz
          simp at hz; subst hz; exact hyx
        · rw [if_neg hxw] at hz
          simp at hz; subst hz
          exact (List.chain'_cons.mp hl).1

theorem stableSortBy_sorted (le : α → α → Bool)
    (htotal : ∀ a b, le a b = true ∨ le b a = true) (l : List α) :
    (stableSortBy le l).Chain' (fun a b => le a b = true) := by
  induction l with
  | nil => simp [stableSortBy]
  | cons x xs ih => exact insertLe_sorted le htotal x _ ih

/-! ### Integer width selection (int_size in builder.rs) -/

/-- Smallest number of bytes holding v as an unsigned integer, capped at 4;
translation of int_size in builder.rs. -/
def int_size (v : Nat) : Nat :=
  if v ≤ 0xFF then 1
  else if v ≤ 0xFFFF then 2
  else if v ≤ 0xFFFFFF then 3
  else 4

theorem int_size_pos (v : Nat) : 1 ≤ int_size v := by
  unfold int_size
  split <;> [omega; split <;> [omega; split <;> omega]]

theorem int_size_le_four (v : Nat) : int_size v ≤ 4 := by
  unfold int_size
  split <;> [omega; split <;> [omega; split <;> omega]]

theorem lt_two_pow_mul_int_size {v : Nat} (h : v < 2 ^ 32) :
    v < 2 ^ (8 * int_size v) := by
  unfold int_size
  split
  · omega
  · split
    · omega
    · split
      · omega
      · simpa using h

/-! ### Header bytes

Translations of primitive_header, short_string_header, array_header and
object_header from builder.rs.  The numeric values of VariantBasicType and
VariantPrimitiveType live in the decoder (src/parquet-variant/src/decoder.rs,
not part of the sources); they are modelled from the Parquet Variant binary
format that the spec describes: basic types Primitive=0, ShortString=1,
Object=2, Array=3, and the primitive type codes listed below. -/

def basicPrimitive : Nat := 0
def basicShortString : Nat := 1
def basicObject : Nat := 2
def basicArray : Nat := 3

def ptNull : Nat := 0
def ptBooleanTrue : Nat := 1
def ptBooleanFalse : Nat := 2
def ptInt8 : Nat := 3
def ptInt16 : Nat := 4
def ptInt32 : Nat := 5
def ptInt64 : Nat := 6
def ptDouble : Nat := 7
def ptDecimal4 : Nat := 8
def ptDecimal8 : Nat := 9
def ptDecimal16 : Nat := 10
def ptDate : Nat := 11
def ptTimestampMicros : Nat := 12
def ptTimestampNtzMicros : Nat := 13
def ptFloat : Nat := 14
def ptBinary : Nat := 15
def ptString : Nat := 16

/-- Header byte of a primitive value: primitive type in the upper six bits,
basic type Primitive in the low two. -/
def primitive_header (primitive_type : Nat) : Nat :=
  primitive_type <<< 2 ||| basicPrimitive

/-- Header byte of a short string: (len as u8) << 2 | ShortString, with the
u8 cast and shift wrapping as in Rust u8 arithmetic. -/
def short_string_header (len : Nat) : Nat :=
  ((len % 256) <<< 2) % 256 ||| basicShortString

/-- Header byte of an array (list). -/
def array_header (large : Bool) (offset_size : Nat) : Nat :=
  (if large then 1 else 0) <<< 4 ||| ((offset_size - 1) <<< 2) ||| basicArray

/-- Header byte of an object. -/
def object_header (large : Bool) (id_size offset_size : Nat) : Nat :=
  (if large then 1 else 0) <<< 6 ||| ((id_size - 1) <<< 4) |||
    ((offset_size - 1) <<< 2) ||| basicObject

/-! ### MetadataBuilder -/

/-- The metadata builder: field names in insertion order (an IndexSet in the
Rust code), the sortedness flag, and the output buffer that the finished
metadata is appended to. -/
structure MetadataBuilder where
  field_names : List String
  is_sorted : Bool
  metadata_buffer : List Nat
deriving Repr, DecidableEq

/-- The Default instance of MetadataBuilder in Rust: everything empty,
is_sorted false. -/
def mdDefault : MetadataBuilder :=
  { field_names := [], is_sorted := false, metadata_buffer := [] }

/-- MetadataBuilder::from(Vec<u8>): start from an existing metadata buffer. -/
def mdFromBuffer (metadata_buffer : List Nat) : MetadataBuilder :=
  { mdDefault with metadata_buffer := metadata_buffer }

namespace MetadataBuilder

/-- Translation of MetadataBuilder::upsert_field_name: return the index of an
existing name, or append the name, updating the sortedness flag exactly as the
code does. -/
def upsert_field_name (mb : MetadataBuilder) (fname : String) :
    Nat × MetadataBuilder :=
  match mb.field_names.findIdx? (· == fname) with
  | some id => (id, mb)
  | none =>
    let names := mb.field_names ++ [fname]
    let n := names.length
    let sorted :=
      n == 1 || (mb.is_sorted && strLt (names.getD (n - 2) "") (names.getD (n - 1) ""))
    (mb.field_names.length,
      { mb with field_names := names, is_sorted := sorted })

/-- MetadataBuilder::num_field_names (the u32 overflow assertion is a panic,
not part of the value semantics). -/
def num_field_names (mb : MetadataBuilder) : Nat :=
  mb.field_names.length

/-- MetadataBuilder::field_name. -/
def field_name (mb : MetadataBuilder) (i : Nat) : String :=
  mb.field_names.getD i ""

/-- MetadataBuilder::metadata_size: total byte length of all field names. -/
def metadata_size (mb : MetadataBuilder) : Nat :=
  (mb.field_names.map rustLen).sum

/-- Offsets written for the dictionary: a running offset before each name,
then the final total; translation of the offset loop in
MetadataBuilder::finish. -/
def dictOffsets : Nat → List String → List Nat
  | cur, [] => [cur]
  | cur, k :: ks => cur :: dictOffsets (cur + rustLen k) ks

/-- Translation of MetadataBuilder::finish: append header byte, dictionary
size, offsets and string bytes to the metadata buffer. -/
def finish (mb : MetadataBuilder) : List Nat :=
  let nkeys := mb.num_field_names
  let total_dict_size := mb.metadata_size
  let max_offset := max total_dict_size nkeys
  let offset_size := int_size max_offset
  mb.metadata_buffer
    ++ [0x01 ||| ((if mb.is_sorted then 1 else 0) <<< 4) ||| ((offset_size - 1) <<< 6)]
    ++ leBytes nkeys offset_size
    ++ (dictOffsets 0 mb.field_names).flatMap (fun o => leBytes o offset_size)
    ++ mb.field_names.flatMap strBytes

/-- MetadataBuilder::extend / FromIterator: repeated upsert. -/
def extendNames (mb : MetadataBuilder) (l : List String) : MetadataBuilder :=
  l.foldl (fun mb k => (mb.upsert_field_name k).2) mb

end MetadataBuilder

/-! ### Decoded Variant values

The in-memory form of a decoded Variant (the reader type is outside the
sources; its payloads are carried abstractly: floating point values by their
bit pattern, dates and timestamps by their underlying integer). -/

inductive Variant where
  | nullV : Variant
  | booleanTrue : Variant
  | booleanFalse : Variant
  | int8 (v : Int) : Variant
  | int16 (v : Int) : Variant
  | int32 (v : Int) : Variant
  | int64 (v : Int) : Variant
  | date (days : Int) : Variant
  | timestampMicros (us : Int) : Variant
  | timestampNtzMicros (us : Int) : Variant
  | decimal4 (scale : Nat) (i : Int) : Variant
  | decimal8 (scale : Nat) (i : Int) : Variant
  | decimal16 (scale : Nat) (i : Int) : Variant
  | float (bits : Nat) : Variant
  | double (bits : Nat) : Variant
  | binary (bytes : List Nat) : Variant
  | stringV (s : String) : Variant
  | shortString (s : String) : Variant
  | object (fields : List (String × Variant)) : Variant
  | listV (elems : List Variant) : Variant

/-- Error type; only the InvalidArgumentError variant of ArrowError is
produced by the builder. -/
inductive ArrowError where
  | invalidArgumentError (msg : String) : ArrowError
deriving Repr, DecidableEq

/-- Modelled from the spec: the Display form of the error surface,
written as the string Invalid argument error: followed by the message
(the Display impl lives in the arrow-schema crate, outside the sources). -/
def ArrowError.display : ArrowError → String
  | .invalidArgumentError msg => "Invalid argument error: " ++ msg

/-! ### ValueBuffer primitive writers (translations from builder.rs) -/

def append_null (buf : List Nat) : List Nat :=
  buf ++ [primitive_header ptNull]

def append_bool (buf : List Nat) (b : Bool) : List Nat :=
  buf ++ [primitive_header (if b then ptBooleanTrue else ptBooleanFalse)]

def append_int8 (buf : List Nat) (v : Int) : List Nat :=
  buf ++ primitive_header ptInt8 :: intLeBytes v 1

def append_int16 (buf : List Nat) (v : Int) : List Nat :=
  buf ++ primitive_header ptInt16 :: intLeBytes v 2

def append_int32 (buf : List Nat) (v : Int) : List Nat :=
  buf ++ primitive_header ptInt32 :: intLeBytes v 4

def append_int64 (buf : List Nat) (v : Int) : List Nat :=
  buf ++ primitive_header ptInt64 :: intLeBytes v 8

def append_date (buf : List Nat) (days : Int) : List Nat :=
  buf ++ primitive_header ptDate :: intLeBytes days 4

def append_timestamp_micros (buf : List Nat) (us : Int) : List Nat :=
  buf ++ primitive_header ptTimestampMicros :: intLeBytes us 8

def append_timestamp_ntz_micros (buf : List Nat) (us : Int) : List Nat :=
  buf ++ primitive_header ptTimestampNtzMicros :: intLeBytes us 8

def append_decimal4 (buf : List Nat) (scale : Nat) (i : Int) : List Nat :=
  buf ++ primitive_header ptDecimal4 :: scale % 256 :: intLeBytes i 4

def append_decimal8 (buf : List Nat) (scale : Nat) (i : Int) : List Nat :=
  buf ++ primitive_header ptDecimal8 :: scale % 256 :: intLeBytes i 8

def append_decimal16 (buf : List Nat) (scale : Nat) (i : Int) : List Nat :=
  buf ++ primitive_header ptDecimal16 :: scale % 256 :: intLeBytes i 16

def append_float (buf : List Nat) (bits : Nat) : List Nat :=
  buf ++ primitive_header ptFloat :: leBytes bits 4

def append_double (buf : List Nat) (bits : Nat) : List Nat :=
  buf ++ primitive_header ptDouble :: leBytes bits 8

def append_binary (buf : List Nat) (bytes : List Nat) : List Nat :=
  buf ++ primitive_header ptBinary :: (leBytes bytes.length 4 ++ bytes)

def append_string (buf : List Nat) (s : String) : List Nat :=
  buf ++ primitive_header ptString :: (leBytes (rustLen s) 4 ++ strBytes s)

def append_short_string (buf : List Nat) (s : String) : List Nat :=
  buf ++ short_string_header (rustLen s) :: strBytes s

/-- ValueBuffer::append_header: header byte, then u8 or u32 LE element
count. -/
def append_header (buf : List Nat) (header_byte : Nat) (is_large : Bool)
    (num_items : Nat) : List Nat :=
  buf ++ header_byte :: (if is_large then leBytes num_items 4 else [num_items % 256])

/-! ### ParentState -/

/-- Translation of ParentState: the slots of the parent that a child builder
holds mutable references to (together with the shared MetadataBuilder, which
is threaded separately). -/
inductive PState where
  | variantP (buf : List Nat) : PState
  | listP (buf : List Nat) (offsets : List Nat) : PState
  | objectP (buf : List Nat) (fields : List (Nat × Nat)) (field_name : String) : PState
deriving Repr, DecidableEq

/-- The parent value buffer referenced by a ParentState. -/
def PState.buf : PState → List Nat
  | .variantP b => b
  | .listP b _ => b
  | .objectP b _ _ => b

/-- Replace the parent value buffer (a write through the mutable
reference). -/
def PState.withBuf : PState → List Nat → PState
  | .variantP _, b => .variantP b
  | .listP _ o, b => .listP b o
  | .objectP _ f k, b => .objectP b f k

/-- IndexMap::insert: replace in place if the key is present (keeping its
position), else append; the flag reports whether the key was present. -/
def imInsert (m : List (Nat × Nat)) (k v : Nat) : List (Nat × Nat) × Bool :=
  if m.any (fun p => p.1 == k) then
    (m.map (fun p => if p.1 == k then (k, v) else p), true)
  else (m ++ [(k, v)], false)

/-- Translation of ParentState::finish(starting_offset). -/
def PState.finishP (ps : PState) (mb : MetadataBuilder) (starting_offset : Nat) :
    PState × MetadataBuilder :=
  match ps with
  | .variantP b => (.variantP b, mb)
  | .listP b offsets => (.listP b (offsets ++ [starting_offset]), mb)
  | .objectP b fields key =>
    let (field_id, mb) := mb.upsert_field_name key
    (.objectP b (imInsert fields field_id starting_offset).1 key, mb)

/-! ### Object and list builder internals -/

/-- The private state of an ObjectBuilder: insertion-ordered field map
(field id to starting offset), private value buffer, and the set of
duplicate field ids. -/
structure ObjectState where
  fields : List (Nat × Nat)
  buffer : List Nat
  duplicate_fields : List Nat
deriving Repr, DecidableEq

/-- The part of ObjectBuilder::try_insert before the value is written:
upsert the key, record the field offset, track duplicates. -/
def objInsertPre (validate : Bool) (st : ObjectState) (mb : MetadataBuilder)
    (key : String) : ObjectState × MetadataBuilder :=
  let (field_id, mb) := mb.upsert_field_name key
  let field_start := st.buffer.length
  let (fields, was) := imInsert st.fields field_id field_start
  let dups :=
    if was && validate then
      if field_id ∈ st.duplicate_fields then st.duplicate_fields
      else st.duplicate_fields ++ [field_id]
    else st.duplicate_fields
  ({ st with fields := fields, duplicate_fields := dups }, mb)

/-- The field-map sort in ObjectBuilder::finish: stable sort of the entries
by the field name that each field id denotes. -/
def sortFieldsByName (mb : MetadataBuilder) (fields : List (Nat × Nat)) :
    List (Nat × Nat) :=
  stableSortBy (fun a b => strLe (mb.field_name a.1) (mb.field_name b.1)) fields

/-- Translation of ObjectBuilder::finish: duplicate check, field sort by
name, header, field ids, offsets, value bytes, then ParentState::finish. -/
def object_finish (validate : Bool) (st : ObjectState) (mb : MetadataBuilder)
    (ps : PState) : Except ArrowError (PState × MetadataBuilder) :=
  if validate && !st.duplicate_fields.isEmpty then
    let names := stableSortBy strLe
      (st.duplicate_fields.map (fun id => mb.field_name id))
    .error (.invalidArgumentError
      ("Duplicate field keys detected: [" ++ String.intercalate ", " names ++ "]"))
  else
    let data_size := st.buffer.length
    let num_fields := st.fields.length
    let is_large := decide (num_fields > 255)
    let sortedFields := sortFieldsByName mb st.fields
    let max_id := (sortedFields.map (fun p => p.1)).foldl max 0
    let id_size := int_size max_id
    let offset_size := int_size data_size
    let parent := ps.buf
    let starting_offset := parent.length
    let parent := append_header parent (object_header is_large id_size offset_size)
      is_large num_fields
    let parent := parent ++ (sortedFields.map (fun p => p.1)).flatMap
      (fun i => leBytes i id_size)
    let parent := parent ++ (sortedFields.map (fun p => p.2)).flatMap
      (fun o => leBytes o offset_size) ++ leBytes data_size offset_size
    let parent := parent ++ st.buffer
    .ok ((ps.withBuf parent).finishP mb starting_offset)

/-- Translation of ListBuilder::finish: header, offsets with trailing data
size, value bytes, then ParentState::finish. -/
def list_finish (offsets lbuf : List Nat) (mb : MetadataBuilder) (ps : PState) :
    PState × MetadataBuilder :=
  let data_size := lbuf.length
  let num_elements := offsets.length
  let is_large := decide (num_elements > 255)
  let offset_size := int_size data_size
  let parent := ps.buf
  let starting_offset := parent.length
  let parent := append_header parent (array_header is_large offset_size)
    is_large num_elements
  let parent := parent ++ offsets.flatMap (fun o => leBytes o offset_size)
    ++ leBytes data_size offset_size
  let parent := parent ++ lbuf
  (ps.withBuf parent).finishP mb starting_offset

/-! ### The re-append walker (ValueBuffer::try_append_variant) -/

/-- Snapshot lookup of the destination dictionary built at the start of the
Object arm: metadata_field_names.get(name). -/
def snapshotIdx (names : List String) (fname : String) : Option Nat :=
  names.findIdx? (· == fname)

/-- The Ord instance of Rust Option<T>: None is less than any Some. -/
def optNatLe : Option Nat → Option Nat → Bool
  | none, _ => true
  | some _, none => false
  | some a, some b => a ≤ b

/-- The sort performed by the Object arm of the walker:
object_fields.sort_by_key(metadata_field_names.get(field_name)), a stable
sort by the Option-valued snapshot index. -/
def walker_sorted_fields (names : List String) (fs : List (String × Variant)) :
    List (String × Variant) :=
  stableSortBy (fun a b => optNatLe (snapshotIdx names a.1) (snapshotIdx names b.1)) fs

theorem sizeOf_walker_sorted_fields (names : List String)
    (fs : List (String × Variant)) :
    sizeOf (walker_sorted_fields names fs) = sizeOf fs :=
  sizeOf_stableSortBy _ _

mutual

/-- Translation of ValueBuffer::try_append_variant.  The result is the error
slot (None on success) together with the states of the buffer and the
metadata builder after the call (the Rust code mutates them in place). -/
def try_append_variant : Variant → List Nat → MetadataBuilder →
    Option ArrowError × List Nat × MetadataBuilder
  | .nullV, buf, mb => (none, append_null buf, mb)
  | .booleanTrue, buf, mb => (none, append_bool buf true, mb)
  | .booleanFalse, buf, mb => (none, append_bool buf false, mb)
  | .int8 v, buf, mb => (none, append_int8 buf v, mb)
  | .int16 v, buf, mb => (none, append_int16 buf v, mb)
  | .int32 v, buf, mb => (none, append_int32 buf v, mb)
  | .int64 v, buf, mb => (none, append_int64 buf v, mb)
  | .date d, buf, mb => (none, append_date buf d, mb)
  | .timestampMicros t, buf, mb => (none, append_timestamp_micros buf t, mb)
  | .timestampNtzMicros t, buf, mb => (none, append_timestamp_ntz_micros buf t, mb)
  | .decimal4 sc i, buf, mb => (none, append_decimal4 buf sc i, mb)
  | .decimal8 sc i, buf, mb => (none, append_decimal8 buf sc i, mb)
  | .decimal16 sc i, buf, mb => (none, append_decimal16 buf sc i, mb)
  | .float bits, buf, mb => (none, append_float buf bits, mb)
  | .double bits, buf, mb => (none, append_double buf bits, mb)
  | .binary bs, buf, mb => (none, append_binary buf bs, mb)
  | .stringV s, buf, mb => (none, append_string buf s, mb)
  | .shortString s, buf, mb => (none, append_short_string buf s, mb)
  | .object fs, buf, mb =>
    let sorted := walker_sorted_fields mb.field_names fs
    match objInsertAll sorted ⟨[], [], []⟩ mb with
    | (some e, _, mb') => (some e, buf, mb')
    | (none, st, mb') =>
      match object_finish false st mb' (.variantP buf) with
      | .error e => (some e, buf, mb')
      | .ok (ps, mb'') => (none, ps.buf, mb'')
  | .listV es, buf, mb =>
    match listAppendAll es [] [] mb with
    | (some e, _, _, mb') => (some e, buf, mb')
    | (none, offsets, lbuf, mb') =>
      let (ps, mb'') := list_finish offsets lbuf mb' (.variantP buf)
      (none, ps.buf, mb'')
termination_by v _ _ => sizeOf v
decreasing_by
  all_goals (try rw [sizeOf_walker_sorted_fields])
  all_goals (simp; try omega)

/-- The insertion loop of the walker Object arm: ObjectBuilder::insert for
each (name, child) pair. -/
def objInsertAll : List (String × Variant) → ObjectState → MetadataBuilder →
    Option ArrowError × ObjectState × MetadataBuilder
  | [], st, mb => (none, st, mb)
  | (k, v) :: rest, st, mb =>
    let p := objInsertPre false st mb k
    match try_append_variant v p.1.buffer p.2 with
    | (some e, buf', mb2) => (some e, { p.1 with buffer := buf' }, mb2)
    | (none, buf', mb2) => objInsertAll rest { p.1 with buffer := buf' } mb2
termination_by pairs _ _ => sizeOf pairs
decreasing_by
  all_goals (simp; try omega)

/-- The append loop of the walker List arm: ListBuilder::append_value for
each element. -/
def listAppendAll : List Variant → List Nat → List Nat → MetadataBuilder →
    Option ArrowError × List Nat × List Nat × MetadataBuilder
  | [], offsets, lbuf, mb => (none, offsets, lbuf, mb)
  | v :: rest, offsets, lbuf, mb =>
    let offsets' := offsets ++ [lbuf.length]
    match try_append_variant v lbuf mb with
    | (some e, lbuf', mb') => (some e, offsets', lbuf', mb')
    | (none, lbuf', mb') => listAppendAll rest offsets' lbuf' mb'
termination_by vs _ _ _ => sizeOf vs
decreasing_by
  all_goals (simp; try omega)

end

/-! ### VariantBuilder -/

/-- Translation of the top-level VariantBuilder. -/
structure VariantBuilder where
  buffer : List Nat
  metadata_builder : MetadataBuilder
  validate_unique_fields : Bool

namespace VariantBuilder

/-- VariantBuilder::new. -/
def new : VariantBuilder :=
  { buffer := [], metadata_builder := mdDefault, validate_unique_fields := false }

/-- VariantBuilder::new_with_buffers. -/
def new_with_buffers (metadata_buffer value_buffer : List Nat) : VariantBuilder :=
  { buffer := value_buffer, metadata_builder := mdFromBuffer metadata_buffer,
    validate_unique_fields := false }

/-- VariantBuilder::with_validate_unique_fields. -/
def with_validate_unique_fields (b : VariantBuilder) (v : Bool) : VariantBuilder :=
  { b with validate_unique_fields := v }

/-- VariantBuilder::add_field_name. -/
def add_field_name (b : VariantBuilder) (fname : String) : VariantBuilder :=
  { b with metadata_builder := (b.metadata_builder.upsert_field_name fname).2 }

/-- VariantBuilder::with_field_names. -/
def with_field_names (b : VariantBuilder) (l : List String) : VariantBuilder :=
  { b with metadata_builder := b.metadata_builder.extendNames l }

/-- VariantBuilder::try_append_value. -/
def try_append_value (b : VariantBuilder) (v : Variant) :
    Option ArrowError × VariantBuilder :=
  match try_append_variant v b.buffer b.metadata_builder with
  | (r, buf, mb) => (r, { b with buffer := buf, metadata_builder := mb })

/-- VariantBuilder::finish: the metadata blob and the value blob. -/
def finish (b : VariantBuilder) : List Nat × List Nat :=
  (b.metadata_builder.finish, b.buffer)

end VariantBuilder

/-! ### Child builders as states, and builder operation sequences

A ListBuilder / ObjectBuilder owns its private buffer and pending state and
holds (through its ParentState) the parent slots it will mutate at finish.
A sequence of operations driven on a child builder is modelled by an explicit
operation language; nested child builders appear as operation lists together
with the flag telling whether the child was finished or abandoned
(dropped without finish). -/

/-- The state of a ListBuilder: captured parent slots, shared metadata
builder, pending offsets, private buffer. -/
structure LB where
  parent : PState
  mb : MetadataBuilder
  offsets : List Nat
  buffer : List Nat

/-- The state of an ObjectBuilder: captured parent slots, shared metadata
builder, pending field map, private buffer, duplicate-id set. -/
structure OB where
  parent : PState
  mb : MetadataBuilder
  fields : List (Nat × Nat)
  buffer : List Nat
  duplicate_fields : List Nat

mutual
/-- An operation on a ListBuilder: append a value, or drive a nested list or
object child (the flag tells whether the child was finished). -/
inductive LOp where
  | append (v : Variant) : LOp
  | nlist (ops : List LOp) (finished : Bool) : LOp
  | nobj (ops : List OOp) (finished : Bool) : LOp

/-- An operation on an ObjectBuilder: insert a field, or drive a nested list
or object child under a key. -/
inductive OOp where
  | ins (key : String) (v : Variant) : OOp
  | nlist (key : String) (ops : List LOp) (finished : Bool) : OOp
  | nobj (key : String) (ops : List OOp) (finished : Bool) : OOp
end

/-- Translation of ListBuilder::try_append_value: push the element start
offset, then append the value into the private buffer. -/
def LB.try_append_value (lb : LB) (v : Variant) : Option ArrowError × LB :=
  let offsets := lb.offsets ++ [lb.buffer.length]
  match try_append_variant v lb.buffer lb.mb with
  | (r, buf, mb) => (r, { lb with offsets := offsets, buffer := buf, mb := mb })

/-- Translation of ListBuilder::finish: emit into the parent slots, then
ParentState::finish. -/
def LB.finishL (lb : LB) : PState × MetadataBuilder :=
  list_finish lb.offsets lb.buffer lb.mb lb.parent

/-- Translation of ObjectBuilder::try_insert. -/
def OB.try_insert (validate : Bool) (ob : OB) (key : String) (v : Variant) :
    Option ArrowError × OB :=
  let p := objInsertPre validate ⟨ob.fields, ob.buffer, ob.duplicate_fields⟩ ob.mb key
  match try_append_variant v p.1.buffer p.2 with
  | (r, buf, mb) =>
    (r, { ob with fields := p.1.fields, duplicate_fields := p.1.duplicate_fields,
                  buffer := buf, mb := mb })

/-- Translation of ObjectBuilder::finish. -/
def OB.finishO (validate : Bool) (ob : OB) :
    Except ArrowError (PState × MetadataBuilder) :=
  object_finish validate ⟨ob.fields, ob.buffer, ob.duplicate_fields⟩ ob.mb ob.parent

/-- The child ListBuilder spawned by ListBuilder::new_list: it captures
ParentState::List references to this builder's buffer and offsets. -/
def lbSpawnL (lb : LB) : LB :=
  { parent := .listP lb.buffer lb.offsets, mb := lb.mb, offsets := [], buffer := [] }

/-- The child ObjectBuilder spawned by ListBuilder::new_object. -/
def obSpawnL (lb : LB) : OB :=
  { parent := .listP lb.buffer lb.offsets, mb := lb.mb, fields := [], buffer := [],
    duplicate_fields := [] }

/-- The child ListBuilder spawned by ObjectBuilder::new_list(key): it captures
ParentState::Object references to this builder's buffer and field map plus
the pending key. -/
def lbSpawnO (ob : OB) (key : String) : LB :=
  { parent := .objectP ob.buffer ob.fields key, mb := ob.mb, offsets := [],
    buffer := [] }

/-- The child ObjectBuilder spawned by ObjectBuilder::new_object(key). -/
def obSpawnO (ob : OB) (key : String) : OB :=
  { parent := .objectP ob.buffer ob.fields key, mb := ob.mb, fields := [],
    buffer := [], duplicate_fields := [] }

mutual

/-- Run a sequence of operations on a ListBuilder state. -/
def runL (validate : Bool) (lb : LB) : List LOp → LB
  | [] => lb
  | op :: rest => runL validate (applyL validate lb op) rest
termination_by ops => sizeOf ops
decreasing_by
  all_goals (simp; try omega)

/-- Apply one operation to a ListBuilder state.  Nested children are spawned
holding ParentState::List references to this builder's buffer and offsets;
when the child is finished, its writes come back through those slots, and
when it is abandoned only the shared metadata builder retains its effects
(Drop for the builders does nothing). -/
def applyL (validate : Bool) (lb : LB) : LOp → LB
  | .append v => (lb.try_append_value v).2
  | .nlist ops fin =>
    let child := runL validate (lbSpawnL lb) ops
    if fin then
      match child.finishL with
      | (.listP b o, mb) => { lb with buffer := b, offsets := o, mb := mb }
      | (_, mb) => { lb with mb := mb }
    else
      match child.parent with
      | .listP b o => { lb with buffer := b, offsets := o, mb := child.mb }
      | _ => { lb with mb := child.mb }
  | .nobj ops fin =>
    let child := runO validate (obSpawnL lb) ops
    if fin then
      match child.finishO validate with
      | .ok (.listP b o, mb) => { lb with buffer := b, offsets := o, mb := mb }
      | .ok (_, mb) => { lb with mb := mb }
      | .error _ =>
        match child.parent with
        | .listP b o => { lb with buffer := b, offsets := o, mb := child.mb }
        | _ => { lb with mb := child.mb }
    else
      match child.parent with
      | .listP b o => { lb with buffer := b, offsets := o, mb := child.mb }
      | _ => { lb with mb := child.mb }
termination_by op => sizeOf op
decreasing_by
  all_goals (simp; try omega)

/-- Run a sequence of operations on an ObjectBuilder state. -/
def runO (validate : Bool) (ob : OB) : List OOp → OB
  | [] => ob
  | op :: rest => runO validate (applyO validate ob op) rest
termination_by ops => sizeOf ops
decreasing_by
  all_goals (simp; try omega)

/-- Apply one operation to an ObjectBuilder state.  Nested children hold
ParentState::Object references to this builder's buffer and field map plus
the pending key. -/
def applyO (validate : Bool) (ob : OB) : OOp → OB
  | .ins key v => (OB.try_insert validate ob key v).2
  | .nlist key ops fin =>
    let child := runL validate (lbSpawnO ob key) ops
    if fin then
      match child.finishL with
      | (.objectP b f _, mb) => { ob with buffer := b, fields := f, mb := mb }
      | (_, mb) => { ob with mb := mb }
    else
      match child.parent with
      | .objectP b f _ => { ob with buffer := b, fields := f, mb := child.mb }
      | _ => { ob with mb := child.mb }
  | .nobj key ops fin =>
    let child := runO validate (obSpawnO ob key) ops
    if fin then
      match child.finishO validate with
      | .ok (.objectP b f _, mb) => { ob with buffer := b, fields := f, mb := mb }
      | .ok (_, mb) => { ob with mb := mb }
      | .error _ =>
        match child.parent with
        | .objectP b f _ => { ob with buffer := b, fields := f, mb := child.mb }
        | _ => { ob with mb := child.mb }
    else
      match child.parent with
      | .objectP b f _ => { ob with buffer := b, fields := f, mb := child.mb }
      | _ => { ob with mb := child.mb }
termination_by op => sizeOf op
decreasing_by
  all_goals (simp; try omega)

end

/-! ## Claim C9 -/

/-- C9 counterexample: a VariantBuilder created by new_with_buffers with the
non-empty metadata buffer [0xAA] returns metadata bytes that start with that
very byte — the passed-in contents are not discarded and do appear in the
returned metadata bytes, contradicting the claim at this input. -/
theorem C9_counterexample :
    (VariantBuilder.finish (VariantBuilder.new_with_buffers [0xAA] [])).1
      = [0xAA, 0x01, 0x00, 0x00] ∧
    0xAA ∈ (VariantBuilder.finish (VariantBuilder.new_with_buffers [0xAA] [])).1 := by
  decide

/-- C9 amended: the metadata blob is regenerated from the dictionary alone —
the passed-in buffer's contents are never read — but those bytes are kept in
place: the returned metadata equals the passed-in buffer followed by the
blob that would be produced from an empty buffer. -/
theorem C9_metadata_buffer_kept_as_prefix (b : VariantBuilder) :
    (VariantBuilder.finish b).1
      = b.metadata_builder.metadata_buffer
        ++ MetadataBuilder.finish { b.metadata_builder with metadata_buffer := [] } := by
  simp [VariantBuilder.finish, MetadataBuilder.finish, MetadataBuilder.metadata_size,
    MetadataBuilder.num_field_names]

/-! ## Claim C10 -/

/-- C10: ListBuilder::try_append_value pushes the element start offset before
attempting to write the value: whatever the result (success or error), the
resulting offsets vector is the old one extended by the old buffer length —
so a failed append still grows the offsets by one entry. -/
theorem C10_try_append_value_pushes_offset_first (lb : LB) (v : Variant) :
    ((LB.try_append_value lb v).2).offsets = lb.offsets ++ [lb.buffer.length] := by
  unfold LB.try_append_value
  rcases h : try_append_variant v lb.buffer lb.mb with ⟨r, buf, mb⟩
  simp

/-! ## Claim C8 -/

theorem dictOffsets_eq_map_range (names : List String) (cur : Nat) :
    MetadataBuilder.dictOffsets cur names
      = (List.range (names.length + 1)).map
          (fun k => cur + ((names.take k).map rustLen).sum) := by
  induction names generalizing cur with
  | nil => simp [MetadataBuilder.dictOffsets]
  | cons x xs ih =>
    rw [MetadataBuilder.dictOffsets, ih]
    conv_rhs => rw [show (x :: xs).length + 1 = (xs.length + 1) + 1 by simp,
      List.range_succ_eq_map]
    rw [List.map_cons, List.map_map]
    simp only [List.take_zero, List.map_nil, List.sum_nil, Nat.add_zero]
    congr 1
    apply List.map_congr_left
    intro k _
    simp [List.take_succ_cons, Nat.add_assoc]

/-- C8: MetadataBuilder::finish emits, after the pre-existing buffer: the
header byte 0x01 with the sorted flag at bit 4 and offset_size − 1 at bits
6..7; the dictionary size in offset_size little-endian bytes; nkeys + 1
offsets, the k-th being the byte position of the k-th name in the string
region (so the last equals the total name bytes); then the concatenated
UTF-8 name bytes — with offset_size = int_size (max total_name_bytes nkeys). -/
theorem C8_metadata_blob_layout (mb : MetadataBuilder) :
    MetadataBuilder.finish mb
      = mb.metadata_buffer
        ++ [0x01 ||| ((if mb.is_sorted then 1 else 0) <<< 4)
              ||| ((int_size (max mb.metadata_size mb.num_field_names) - 1) <<< 6)]
        ++ leBytes mb.num_field_names (int_size (max mb.metadata_size mb.num_field_names))
        ++ (List.range (mb.num_field_names + 1)).flatMap
             (fun k => leBytes (((mb.field_names.take k).map rustLen).sum)
               (int_size (max mb.metadata_size mb.num_field_names)))
        ++ mb.field_names.flatMap strBytes := by
  rw [MetadataBuilder.finish]
  simp only [MetadataBuilder.num_field_names]
  rw [dictOffsets_eq_map_range]
  simp [List.flatMap_map, MetadataBuilder.num_field_names]

/-! ## Claim C7 -/

theorem foldl_max_perm {l l' : List Nat} (h : l.Perm l') (a : Nat) :
    l.foldl max a = l'.foldl max a := by
  induction h generalizing a with
  | nil => rfl
  | cons x _ ih => simp [ih]
  | swap x y l =>
    simp only [List.foldl_cons]
    congr 1
    rw [Nat.max_assoc, Nat.max_comm y x, ← Nat.max_assoc]
  | trans _ _ ih1 ih2 => rw [ih1, ih2]

@[simp] theorem PState.buf_withBuf (ps : PState) (b : List Nat) :
    (ps.withBuf b).buf = b := by
  cases ps <;> rfl

@[simp] theorem PState.buf_finishP (ps : PState) (mb : MetadataBuilder) (so : Nat) :
    ((ps.finishP mb so).1).buf = ps.buf := by
  cases ps <;> simp [PState.finishP, PState.buf]

/-- Bit fields of an array header byte: offset_size − 1 sits at bits 2..3 and
the large flag at bit 4. -/
theorem array_header_bits (L : Bool) {os : Nat} (h1 : 1 ≤ os) (h4 : os ≤ 4) :
    ((array_header L os) >>> 2) &&& 3 = os - 1
    ∧ ((array_header L os) >>> 4) &&& 1 = (if L then 1 else 0) := by
  interval_cases os <;> cases L <;> exact ⟨by decide, by decide⟩

/-- Bit fields of an object header byte: offset_size − 1 at bits 2..3,
id_size − 1 at bits 4..5, the large flag at bit 6. -/
theorem object_header_bits (L : Bool) {ids os : Nat}
    (hi1 : 1 ≤ ids) (hi4 : ids ≤ 4) (h1 : 1 ≤ os) (h4 : os ≤ 4) :
    ((object_header L ids os) >>> 2) &&& 3 = os - 1
    ∧ ((object_header L ids os) >>> 4) &&& 3 = ids - 1
    ∧ ((object_header L ids os) >>> 6) &&& 1 = (if L then 1 else 0) := by
  interval_cases ids <;> interval_cases os <;> cases L <;>
    exact ⟨by decide, by decide, by decide⟩

/-- Sorting the field map does not change the maximal field id. -/
theorem sortFields_max_eq (mb : MetadataBuilder) (fields : List (Nat × Nat)) :
    ((sortFieldsByName mb fields).map (fun p => p.1)).foldl max 0
      = (fields.map (fun p => p.1)).foldl max 0 :=
  foldl_max_perm ((stableSortBy_perm _ fields).map (fun p => p.1)) 0

/-- C7: width selection of the emitted headers.  First conjunct: the value of
int_size.  Second: every array header emitted by ListBuilder::finish carries
offset_size = int_size (private buffer length) in bits 2..3 and the large
flag (count > 255) in bit 4, followed by the count.  Third: every object
header emitted by ObjectBuilder::finish carries offset_size =
int_size (private buffer length) in bits 2..3, id_size = int_size of the
maximal field id present (0 if none) in bits 4..5, and the large flag in
bit 6. -/
theorem C7_header_width_minimality :
    (∀ v, int_size v
        = if v ≤ 0xFF then 1 else if v ≤ 0xFFFF then 2
          else if v ≤ 0xFFFFFF then 3 else 4)
    ∧ (∀ offsets lbuf mb ps, ∃ hdr rest,
        ((list_finish offsets lbuf mb ps).1).buf = ps.buf ++ hdr :: rest
        ∧ (hdr >>> 2) &&& 3 = int_size lbuf.length - 1
        ∧ ((hdr >>> 4) &&& 1 = (if 255 < offsets.length then 1 else 0)))
    ∧ (∀ validate st mb ps ps' mb',
        object_finish validate st mb ps = .ok (ps', mb') → ∃ hdr rest,
        ps'.buf = ps.buf ++ hdr :: rest
        ∧ (hdr >>> 2) &&& 3 = int_size st.buffer.length - 1
        ∧ (hdr >>> 4) &&& 3 = int_size ((st.fields.map (fun p => p.1)).foldl max 0) - 1
        ∧ ((hdr >>> 6) &&& 1 = (if 255 < st.fields.length then 1 else 0))) := by
  refine ⟨fun v => rfl, ?_, ?_⟩
  · intro offsets lbuf mb ps
    refine ⟨array_header (decide (255 < offsets.length)) (int_size lbuf.length),
      (if decide (255 < offsets.length) then leBytes offsets.length 4
        else [offsets.length % 256])
      ++ offsets.flatMap (fun o => leBytes o (int_size lbuf.length))
      ++ leBytes lbuf.length (int_size lbuf.length) ++ lbuf, ?_, ?_, ?_⟩
    · rw [list_finish]
      simp only [PState.buf_finishP, PState.buf_withBuf, append_header]
      simp
    · exact (array_header_bits (decide (255 < offsets.length))
        (int_size_pos lbuf.length) (int_size_le_four lbuf.length)).1
    · rw [(array_header_bits (decide (255 < offsets.length))
        (int_size_pos lbuf.length) (int_size_le_four lbuf.length)).2]
      by_cases h : 255 < offsets.length <;> simp [h]
  · intro validate st mb ps ps' mb' h
    rw [object_finish] at h
    split at h
    · simp at h
    · rw [Except.ok.injEq] at h
      refine ⟨object_header (decide (255 < st.fields.length))
        (int_size ((st.fields.map (fun p => p.1)).foldl max 0))
        (int_size st.buffer.length),
        (if decide (255 < st.fields.length) then leBytes st.fields.length 4
          else [st.fields.length % 256])
        ++ ((sortFieldsByName mb st.fields).map (fun p => p.1)).flatMap
             (fun i => leBytes i (int_size ((st.fields.map (fun p => p.1)).foldl max 0)))
        ++ ((sortFieldsByName mb st.fields).map (fun p => p.2)).flatMap
             (fun o => leBytes o (int_size st.buffer.length))
        ++ leBytes st.buffer.length (int_size st.buffer.length)
        ++ st.buffer, ?_, ?_, ?_, ?_⟩
      · rw [show ps' = (ps', mb').1 from rfl, ← h]
        simp only [PState.buf_finishP, PState.buf_withBuf, append_header,
          sortFields_max_eq]
        simp [sortFields_max_eq]
      · exact (object_header_bits (decide (255 < st.fields.length))
          (int_size_pos _) (int_size_le_four _)
          (int_size_pos st.buffer.length) (int_size_le_four st.buffer.length)).1
      · exact (object_header_bits (decide (255 < st.fields.length))
          (int_size_pos _) (int_size_le_four _)
          (int_size_pos st.buffer.length) (int_size_le_four st.buffer.length)).2.1
      · rw [(object_header_bits (decide (255 < st.fields.length))
          (int_size_pos _) (int_size_le_four _)
          (int_size_pos st.buffer.length) (int_size_le_four st.buffer.length)).2.2]
        by_cases hc : 255 < st.fields.length <;> simp [hc]

/-- C7 witness: the width properties instantiated on a concrete empty list
and a concrete empty object. -/
theorem C7_header_width_minimality_witness :
    (∃ hdr rest, ((list_finish [] [] mdDefault (.variantP [])).1).buf
        = (PState.variantP []).buf ++ hdr :: rest
      ∧ (hdr >>> 2) &&& 3 = int_size ([] : List Nat).length - 1
      ∧ ((hdr >>> 4) &&& 1 = (if 255 < ([] : List Nat).length then 1 else 0)))
    ∧ (∃ hdr rest, (PState.variantP [2, 0, 0]).buf
        = (PState.variantP []).buf ++ hdr :: rest
      ∧ (hdr >>> 2) &&& 3 = int_size (ObjectState.mk [] [] []).buffer.length - 1
      ∧ (hdr >>> 4) &&& 3
          = int_size (((ObjectState.mk [] [] []).fields.map (fun p => p.1)).foldl max 0) - 1
      ∧ ((hdr >>> 6) &&& 1
          = (if 255 < (ObjectState.mk [] [] []).fields.length then 1 else 0))) :=
  ⟨C7_header_width_minimality.2.1 [] [] mdDefault (.variantP []),
   C7_header_width_minimality.2.2 false ⟨[], [], []⟩ mdDefault (.variantP [])
     (.variantP [2, 0, 0]) mdDefault rfl⟩

/-! ## Claim C6 -/

theorem findIdx?_beq_spec (f : String) :
    ∀ (l : List String) (i : Nat), l.findIdx? (· == f) = some i →
      i < l.length ∧ l.getD i "" = f := by
  intro l
  induction l with
  | nil => simp
  | cons x xs ih =>
    intro i h
    rw [List.findIdx?_cons] at h
    by_cases hx : (x == f) = true
    · rw [if_pos hx] at h
      cases h
      simpa using eq_of_beq hx
    · rw [if_neg hx, List.findIdx?_succ] at h
      rcases Option.map_eq_some'.mp h with ⟨j, hj, rfl⟩
      obtain ⟨h1, h2⟩ := ih j hj
      exact ⟨by simpa using h1, by simpa using h2⟩

theorem mem_findIdx?_beq (f : String) :
    ∀ (l : List String), f ∈ l → ∃ i, l.findIdx? (· == f) = some i := by
  intro l
  induction l with
  | nil => simp
  | cons x xs ih =>
    intro hmem
    rw [List.findIdx?_cons]
    by_cases hx : (x == f) = true
    · exact ⟨0, by rw [if_pos hx]⟩
    · have : f ∈ xs := by
        rcases List.mem_cons.mp hmem with h | h
        · exact absurd (by simp [h]) hx
        · exact h
      obtain ⟨i, hi⟩ := ih this
      exact ⟨i + 1, by rw [if_neg hx, List.findIdx?_succ, hi]; rfl⟩

theorem upsert_names_extends (mb : MetadataBuilder) (f : String) :
    ∃ t, ((mb.upsert_field_name f).2).field_names = mb.field_names ++ t := by
  unfold MetadataBuilder.upsert_field_name
  cases mb.field_names.findIdx? (· == f) with
  | some id => exact ⟨[], by simp⟩
  | none => exact ⟨[f], rfl⟩

theorem extendNames_names_extends (l : List String) :
    ∀ (mb : MetadataBuilder),
      ∃ t, ((MetadataBuilder.extendNames mb l)).field_names = mb.field_names ++ t := by
  induction l with
  | nil => exact fun mb => ⟨[], by simp [MetadataBuilder.extendNames]⟩
  | cons x xs ih =>
    intro mb
    obtain ⟨t1, h1⟩ := upsert_names_extends mb x
    obtain ⟨t2, h2⟩ := ih ((mb.upsert_field_name x)).2
    exact ⟨t1 ++ t2, by
      simp only [MetadataBuilder.extendNames, List.foldl_cons] at h2 ⊢
      rw [h2, h1, List.append_assoc]⟩

theorem extendNames_append (mb : MetadataBuilder) (l l' : List String) :
    MetadataBuilder.extendNames mb (l ++ l')
      = MetadataBuilder.extendNames (MetadataBuilder.extendNames mb l) l' := by
  simp [MetadataBuilder.extendNames, List.foldl_append]

/-- One upsert preserves the sortedness characterization. -/
theorem upsert_sorted_inv (mb : MetadataBuilder) (f : String)
    (h : mb.is_sorted = true ↔ mb.field_names ≠ [] ∧ mb.field_names.Chain' (fun a b => strLt a b = true)) :
    ((mb.upsert_field_name f).2.is_sorted = true
      ↔ ((mb.upsert_field_name f).2).field_names ≠ []
        ∧ ((mb.upsert_field_name f).2).field_names.Chain' (fun a b => strLt a b = true)) := by
  obtain ⟨names, sorted, bufm⟩ := mb
  unfold MetadataBuilder.upsert_field_name
  cases names.findIdx? (· == f) with
  | some id => simpa using h
  | none =>
    simp only []
    cases names with
    | nil => simp
    | cons a as =>
      simp only [] at h ⊢
      have hlen : (a :: as ++ [f]).length = as.length + 2 := by simp
      have hidx1 : (a :: as ++ [f]).getD (as.length + 2 - 2) ""
          = (a :: as).getD as.length "" := by
        have : as.length + 2 - 2 = as.length := by omega
        rw [this]
        rw [show (a :: as ++ [f]) = (a :: as) ++ [f] from rfl]
        exact List.getD_append _ _ _ _ (by simp)
      have hidx2 : (a :: as ++ [f]).getD (as.length + 2 - 1) "" = f := by
        have h1 : as.length + 2 - 1 = (a :: as).length := by simp
        rw [h1, show (a :: as ++ [f]) = (a :: as) ++ [f] from rfl]
        rw [List.getD_eq_getElem?_getD, List.getElem?_append_right (by simp)]
        simp
      rw [hlen, hidx1, hidx2]
      have hgl : (a :: as).getD as.length "" = (a :: as).getLast (by simp) := by
        rw [List.getD_eq_getElem?_getD, List.getLast_eq_getElem]
        simp
      have hchain : (a :: as ++ [f]).Chain' (fun a b => strLt a b = true)
          ↔ (a :: as).Chain' (fun a b => strLt a b = true)
            ∧ strLt ((a :: as).getLast (by simp)) f = true := by
        rw [show (a :: as ++ [f]) = (a :: as) ++ [f] from rfl, List.chain'_append]
        simp [List.getLast?_eq_getLast]
      simp only [Bool.or_eq_true, Bool.and_eq_true, beq_iff_eq]
      constructor
      · rintro (h1 | ⟨hs1, hs2⟩)
        · exact absurd h1 (by omega)
        · refine ⟨by simp, ?_⟩
          rw [hchain]
          exact ⟨(h.mp hs1).2, by rw [← hgl]; exact hs2⟩
      · rintro ⟨-, hc⟩
        rw [hchain] at hc
        right
        exact ⟨h.mpr ⟨by simp, hc.1⟩, by rw [hgl]; exact hc.2⟩

theorem extendNames_sorted_inv (l : List String) :
    ∀ (mb : MetadataBuilder),
      (mb.is_sorted = true ↔ mb.field_names ≠ [] ∧ mb.field_names.Chain' (fun a b => strLt a b = true)) →
      ((MetadataBuilder.extendNames mb l).is_sorted = true
        ↔ (MetadataBuilder.extendNames mb l).field_names ≠ []
          ∧ (MetadataBuilder.extendNames mb l).field_names.Chain' (fun a b => strLt a b = true)) := by
  induction l with
  | nil => exact fun mb h => by simpa [MetadataBuilder.extendNames] using h
  | cons x xs ih =>
    intro mb h
    have := ih ((mb.upsert_field_name x)).2 (upsert_sorted_inv mb x h)
    simpa [MetadataBuilder.extendNames] using this

/-- C6: invariants of the metadata dictionary under any sequence of
upsert_field_name calls starting from the default builder.
First conjunct: ids never change once assigned — the name stored at any
already-assigned id is unchanged by later upserts.
Second conjunct: upserting an existing name returns its id without changing
the builder, and that id denotes the name.
Third conjunct: is_sorted holds exactly for a non-empty dictionary whose
names, in insertion order, form a strictly increasing chain — so the empty
dictionary is unsorted, a single entry makes it sorted, it stays sorted
exactly while each appended name strictly exceeds the previous one.
Fourth conjunct: once false on a non-empty dictionary, is_sorted stays
false under further upserts. -/
theorem C6_upsert_field_name_invariants :
    (∀ (l more : List String) (k : Nat),
      k < (MetadataBuilder.extendNames mdDefault l).field_names.length →
      (MetadataBuilder.extendNames mdDefault (l ++ more)).field_names.getD k ""
        = (MetadataBuilder.extendNames mdDefault l).field_names.getD k "")
    ∧ (∀ (mb : MetadataBuilder) (fname : String), fname ∈ mb.field_names →
      ((mb.upsert_field_name fname)).2 = mb
        ∧ mb.field_names.getD ((mb.upsert_field_name fname)).1 "" = fname)
    ∧ (∀ l : List String,
      ((MetadataBuilder.extendNames mdDefault l).is_sorted = true
        ↔ (MetadataBuilder.extendNames mdDefault l).field_names ≠ []
          ∧ (MetadataBuilder.extendNames mdDefault l).field_names.Chain' (fun a b => strLt a b = true)))
    ∧ (∀ l more : List String,
      (MetadataBuilder.extendNames mdDefault l).field_names ≠ [] →
      (MetadataBuilder.extendNames mdDefault l).is_sorted = false →
      (MetadataBuilder.extendNames mdDefault (l ++ more)).is_sorted = false) := by
  have hchar : ∀ l : List String,
      ((MetadataBuilder.extendNames mdDefault l).is_sorted = true
        ↔ (MetadataBuilder.extendNames mdDefault l).field_names ≠ []
          ∧ (MetadataBuilder.extendNames mdDefault l).field_names.Chain' (fun a b => strLt a b = true)) :=
    fun l => extendNames_sorted_inv l mdDefault (by simp [mdDefault])
  refine ⟨?_, ?_, hchar, ?_⟩
  · intro l more k hk
    rw [extendNames_append]
    obtain ⟨t, ht⟩ := extendNames_names_extends more (MetadataBuilder.extendNames mdDefault l)
    rw [ht]
    exact List.getD_append _ _ _ _ hk
  · intro mb fname hmem
    obtain ⟨i, hi⟩ := mem_findIdx?_beq fname mb.field_names hmem
    constructor
    · unfold MetadataBuilder.upsert_field_name
      rw [hi]
    · have hspec := findIdx?_beq_spec fname mb.field_names i hi
      unfold MetadataBuilder.upsert_field_name
      rw [hi]
      exact hspec.2
  · intro l more hne hfalse
    by_contra hcontra
    have htrue : (MetadataBuilder.extendNames mdDefault (l ++ more)).is_sorted = true := by
      cases h : (MetadataBuilder.extendNames mdDefault (l ++ more)).is_sorted
      · exact absurd h hcontra
      · rfl
    obtain ⟨hne', hch⟩ := (hchar (l ++ more)).mp htrue
    rw [extendNames_append] at hch
    obtain ⟨t, ht⟩ := extendNames_names_extends more (MetadataBuilder.extendNames mdDefault l)
    rw [ht] at hch
    have hchl : (MetadataBuilder.extendNames mdDefault l).field_names.Chain' (fun a b => strLt a b = true) :=
      (List.chain'_append.mp hch).1
    have : (MetadataBuilder.extendNames mdDefault l).is_sorted = true :=
      (hchar l).mpr ⟨hne, hchl⟩
    rw [this] at hfalse
    exact absurd hfalse (by simp)

/-! ## Claim C3 -/

theorem LB.parent_try_append_value (lb : LB) (v : Variant) :
    ((LB.try_append_value lb v).2).parent = lb.parent := rfl

theorem OB.parent_try_insert (validate : Bool) (ob : OB) (key : String) (v : Variant) :
    ((OB.try_insert validate ob key v).2).parent = ob.parent := rfl

theorem applyL_parent (validate : Bool) (lb : LB) (op : LOp) :
    (applyL validate lb op).parent = lb.parent := by
  cases op with
  | append v =>
    rw [applyL]
    exact LB.parent_try_append_value lb v
  | nlist ops fin =>
    rw [applyL]
    split <;> split <;> rfl
  | nobj ops fin =>
    rw [applyL]
    split
    · split <;> first | rfl | (split <;> rfl)
    · split <;> rfl

theorem applyO_parent (validate : Bool) (ob : OB) (op : OOp) :
    (applyO validate ob op).parent = ob.parent := by
  cases op with
  | ins key v =>
    rw [applyO]
    exact OB.parent_try_insert validate ob key v
  | nlist key ops fin =>
    rw [applyO]
    split <;> split <;> rfl
  | nobj key ops fin =>
    rw [applyO]
    split
    · split <;> first | rfl | (split <;> rfl)
    · split <;> rfl

theorem runL_parent (validate : Bool) :
    ∀ (ops : List LOp) (lb : LB), (runL validate lb ops).parent = lb.parent := by
  intro ops
  induction ops with
  | nil => intro lb; rw [runL]
  | cons op rest ih =>
    intro lb
    rw [runL, ih]
    exact applyL_parent validate lb op

theorem runO_parent (validate : Bool) :
    ∀ (ops : List OOp) (ob : OB), (runO validate ob ops).parent = ob.parent := by
  intro ops
  induction ops with
  | nil => intro ob; rw [runO]
  | cons op rest ih =>
    intro ob
    rw [runO, ih]
    exact applyO_parent validate ob op

/-- C3: driving any sequence of operations on a freshly spawned child
ListBuilder or ObjectBuilder and then dropping it without finish leaves every
captured parent slot — in particular the parent's value buffer — exactly as
it was at the moment the child was spawned; only the shared metadata builder
may have changed. -/
theorem C3_abandoned_child_leaves_parent_untouched :
    (∀ (validate : Bool) (ps : PState) (mb : MetadataBuilder) (ops : List LOp),
      (runL validate { parent := ps, mb := mb, offsets := [], buffer := [] } ops).parent
        = ps)
    ∧ (∀ (validate : Bool) (ps : PState) (mb : MetadataBuilder) (ops : List OOp),
      (runO validate { parent := ps, mb := mb, fields := [], buffer := [],
                       duplicate_fields := [] } ops).parent
        = ps) :=
  ⟨fun validate _ _ ops => runL_parent validate ops _,
   fun validate _ _ ops => runO_parent validate ops _⟩

/-! ## Claim C5 -/

theorem optNatLe_total (o o' : Option Nat) :
    optNatLe o o' = true ∨ optNatLe o' o = true := by
  cases o <;> cases o' <;> (simp [optNatLe]; try omega)

/-- Insert before everything: when x compares at-or-before every element, it
lands at the front. -/
theorem insertLe_all (le : α → α → Bool) (x : α) (l : List α)
    (h : ∀ y, le x y = true) : insertLe le x l = x :: l := by
  cases l with
  | nil => rfl
  | cons y ys => rw [insertLe, if_pos (h y)]

/-- Insertion passes over a front block it compares strictly after. -/
theorem insertLe_append_front (le : α → α → Bool) (x : α) (front rest : List α)
    (h : ∀ y ∈ front, le x y = false) :
    insertLe le x (front ++ rest) = front ++ insertLe le x rest := by
  induction front with
  | nil => rfl
  | cons f fs ih =>
    rw [List.cons_append, insertLe, if_neg (by simp [h f (by simp)])]
    rw [ih (fun y hy => h y (by simp [hy]))]
    rfl

theorem filter_insertLe_pos (le : α → α → Bool) (p : α → Bool) (x : α)
    (l : List α) (hx : p x = true) (h : ∀ y, p y = true → le x y = true) :
    (insertLe le x l).filter p = x :: l.filter p := by
  induction l with
  | nil => simp [insertLe, hx]
  | cons y ys ih =>
    rw [insertLe]
    by_cases hxy : le x y = true
    · rw [if_pos hxy]
      simp [hx]
    · rw [if_neg hxy]
      have hpy : p y = false := by
        cases hyp : p y
        · rfl
        · exact absurd (h y hyp) hxy
      rw [List.filter_cons_of_neg (by simp [hpy]), ih,
        List.filter_cons_of_neg (by simp [hpy])]

theorem filter_insertLe_neg (le : α → α → Bool) (p : α → Bool) (x : α)
    (l : List α) (hx : p x = false) :
    (insertLe le x l).filter p = l.filter p := by
  induction l with
  | nil => simp [insertLe, hx]
  | cons y ys ih =>
    rw [insertLe]
    by_cases hxy : le x y = true
    · rw [if_pos hxy, List.filter_cons_of_neg (by simp [hx])]
    · rw [if_neg hxy]
      cases hyp : p y
      · rw [List.filter_cons_of_neg (by simp [hyp]), ih,
          List.filter_cons_of_neg (by simp [hyp])]
      · rw [List.filter_cons_of_pos (by simp [hyp]), ih,
          List.filter_cons_of_pos (by simp [hyp])]

/-- Stability of the sort: a class of mutually at-or-before elements keeps
its original relative order. -/
theorem filter_stableSortBy_class (le : α → α → Bool) (p : α → Bool)
    (hcl : ∀ x y, p x = true → p y = true → le x y = true) (l : List α) :
    (stableSortBy le l).filter p = l.filter p := by
  induction l with
  | nil => rfl
  | cons x xs ih =>
    rw [stableSortBy]
    cases hx : p x
    · rw [filter_insertLe_neg le p x _ hx, ih, List.filter_cons_of_neg (by simp [hx])]
    · rw [filter_insertLe_pos le p x _ hx (fun y hy => hcl x y hx hy), ih,
        List.filter_cons_of_pos (by simp [hx])]

/-- Modelled from the spec: the comparator the claim describes for the
re-append walker Object arm — names absent from the snapshot compare as
larger than any present name. -/
def specAbsentLargerLe : Option Nat → Option Nat → Bool
  | none, none => true
  | none, some _ => false
  | some _, none => true
  | some a, some b => a ≤ b

/-- Modelled from the spec: the sorted field order the claim describes
(present names ascending by index first, absent names after them). -/
def spec_sorted_fields (names : List String) (fs : List (String × Variant)) :
    List (String × Variant) :=
  stableSortBy (fun a b => specAbsentLargerLe (snapshotIdx names a.1) (snapshotIdx names b.1)) fs

/-- C5 counterexample: destination dictionary containing exactly the name b,
decoded object fields in order (b, true), (a, false).  The claim says the
walker sorts the absent name a after the present name b; the code sorts a
first (Rust Option ordering puts None before Some), as both the resulting
pair order and the emitted value bytes show: the value written at offset 0
is BooleanFalse (the value of a), and the dictionary gains a after b. -/
theorem C5_counterexample :
    (walker_sorted_fields ["b"] [("b", .booleanTrue), ("a", .booleanFalse)]).map
        (fun p => p.1) = ["a", "b"]
    ∧ (spec_sorted_fields ["b"] [("b", .booleanTrue), ("a", .booleanFalse)]).map
        (fun p => p.1) = ["b", "a"]
    ∧ (try_append_variant (.object [("b", .booleanTrue), ("a", .booleanFalse)]) []
        (mdDefault.upsert_field_name "b").2).2.1
      = [2, 2, 1, 0, 0, 1, 2, 8, 4] := by
  refine ⟨by decide, by decide, ?_⟩
  have h1 : walker_sorted_fields (mdDefault.upsert_field_name "b").2.field_names
      [("b", Variant.booleanTrue), ("a", Variant.booleanFalse)]
      = [("a", Variant.booleanFalse), ("b", Variant.booleanTrue)] := rfl
  simp only [try_append_variant, h1]
  simp [objInsertAll, try_append_variant]
  decide

/-- C5 amended: the walker sorts the (name, child) pairs stably by the
destination snapshot index with absent names comparing as smaller than any
present name: the output is a permutation of the fields, ascending in the
None-first Option order (so all absent names come first, then present names
by ascending index), the absent names keep their insertion order, and the
pairs sharing any present index keep their insertion order. -/
theorem C5_walker_object_sort_characterization (names : List String)
    (fs : List (String × Variant)) :
    (walker_sorted_fields names fs).Perm fs
    ∧ (walker_sorted_fields names fs).Chain'
        (fun a b => optNatLe (snapshotIdx names a.1) (snapshotIdx names b.1) = true)
    ∧ (walker_sorted_fields names fs).filter
        (fun p => (snapshotIdx names p.1).isNone)
      = fs.filter (fun p => (snapshotIdx names p.1).isNone)
    ∧ ∀ i : Nat,
      (walker_sorted_fields names fs).filter
          (fun p => snapshotIdx names p.1 == some i)
        = fs.filter (fun p => snapshotIdx names p.1 == some i) := by
  refine ⟨stableSortBy_perm _ fs, ?_, ?_, ?_⟩
  · exact stableSortBy_sorted _ (fun a b => optNatLe_total _ _) fs
  · refine filter_stableSortBy_class _ _ ?_ fs
    intro x y hx _
    rcases hk : snapshotIdx names x.1 with _ | v
    · simp [optNatLe]
    · rw [hk] at hx
      simp at hx
  · intro i
    refine filter_stableSortBy_class _ _ ?_ fs
    intro x y hx hy
    rw [beq_iff_eq] at hx hy
    rw [hx, hy]
    simp [optNatLe]

/-! ## Claim C2 -/

theorem chain'_and {R S : α → α → Prop} :
    ∀ {l : List α}, l.Chain' R → l.Chain' S → l.Chain' (fun a b => R a b ∧ S a b) := by
  intro l
  induction l with
  | nil => intro _ _; simp
  | cons x xs ih =>
    intro hR hS
    rcases List.chain'_cons'.mp hR with ⟨hR1, hR2⟩
    rcases List.chain'_cons'.mp hS with ⟨hS1, hS2⟩
    exact List.chain'_cons'.mpr ⟨fun y hy => ⟨hR1 y hy, hS1 y hy⟩, ih hR2 hS2⟩

theorem chain'_imp_of_mem {R S : α → α → Prop} :
    ∀ (l : List α), l.Chain' R →
      (∀ a b, a ∈ l → b ∈ l → R a b → S a b) → l.Chain' S := by
  intro l
  induction l with
  | nil => intro _ _; simp
  | cons x xs ih =>
    intro hR himp
    rcases List.chain'_cons'.mp hR with ⟨hR1, hR2⟩
    refine List.chain'_cons'.mpr ⟨?_, ?_⟩
    · intro y hy
      have hmem : y ∈ xs := List.mem_of_mem_head? hy
      exact himp x y (by simp) (by simp [hmem]) (hR1 y hy)
    · exact ih hR2 (fun a b ha hb hr => himp a b (by simp [ha]) (by simp [hb]) hr)

theorem nodup_getD_inj (l : List String) (h : l.Nodup) {i j : Nat}
    (hi : i < l.length) (hj : j < l.length)
    (he : l.getD i "" = l.getD j "") : i = j := by
  rw [List.getD_eq_getElem l "" hi, List.getD_eq_getElem l "" hj] at he
  exact (List.Nodup.getElem_inj_iff h).mp he

/-- C2: for every object that ObjectBuilder::finish emits, the on-wire field
ids are the ids of the field map sorted by the names they denote, and under
the builder invariants (distinct field ids that are valid indices into a
duplicate-free dictionary) the names denoted by consecutive emitted ids are
strictly ascending in lexicographic order, whatever order the fields were
inserted in.  The byte-level equation places those ids on the wire right
after the header and count. -/
theorem C2_object_field_ids_sorted_by_name (validate : Bool) (st : ObjectState)
    (mb : MetadataBuilder) (ps ps' : PState) (mb' : MetadataBuilder)
    (hnodup_ids : (st.fields.map (fun p => p.1)).Nodup)
    (hbound : ∀ id ∈ st.fields.map (fun p => p.1), id < mb.field_names.length)
    (hnodup_names : mb.field_names.Nodup)
    (hok : object_finish validate st mb ps = .ok (ps', mb')) :
    ((sortFieldsByName mb st.fields).map (fun p => p.1)).Chain'
        (fun i j => strLt (mb.field_name i) (mb.field_name j) = true)
    ∧ ps'.buf
      = ps.buf
        ++ object_header (decide (255 < st.fields.length))
            (int_size ((st.fields.map (fun p => p.1)).foldl max 0))
            (int_size st.buffer.length)
        :: ((if decide (255 < st.fields.length) = true
              then leBytes st.fields.length 4 else [st.fields.length % 256])
          ++ ((sortFieldsByName mb st.fields).map (fun p => p.1)).flatMap
              (fun i => leBytes i (int_size ((st.fields.map (fun p => p.1)).foldl max 0)))
          ++ ((sortFieldsByName mb st.fields).map (fun p => p.2)).flatMap
              (fun o => leBytes o (int_size st.buffer.length))
          ++ leBytes st.buffer.length (int_size st.buffer.length)
          ++ st.buffer) := by
  constructor
  · have hperm : (sortFieldsByName mb st.fields).Perm st.fields :=
      stableSortBy_perm _ st.fields
    have hchainle : (sortFieldsByName mb st.fields).Chain'
        (fun a b => strLe (mb.field_name a.1) (mb.field_name b.1) = true) :=
      stableSortBy_sorted _ (fun a b => strLe_total _ _) st.fields
    have hnodup_sorted : ((sortFieldsByName mb st.fields).map (fun p => p.1)).Nodup :=
      ((hperm.map (fun p => p.1)).nodup_iff).mpr hnodup_ids
    have hchain_ne : (sortFieldsByName mb st.fields).Chain' (fun a b => a.1 ≠ b.1) :=
      (List.pairwise_map.mp hnodup_sorted).chain'
    have hb : ∀ p ∈ sortFieldsByName mb st.fields, p.1 < mb.field_names.length := by
      intro p hp
      exact hbound p.1 (List.mem_map_of_mem _ (hperm.subset hp))
    rw [List.chain'_map]
    refine chain'_imp_of_mem _ (chain'_and hchainle hchain_ne) ?_
    intro a b ha hb' hr
    refine strLt_of_strLe_of_ne hr.1 ?_
    intro hcontra
    exact hr.2 (nodup_getD_inj mb.field_names hnodup_names (hb a ha) (hb b hb') hcontra)
  · rw [object_finish] at hok
    split at hok
    · simp at hok
    · rw [Except.ok.injEq] at hok
      rw [show ps' = (ps', mb').1 from rfl, ← hok]
      simp only [PState.buf_finishP, PState.buf_withBuf, append_header, sortFields_max_eq]
      simp [sortFields_max_eq]

/-- C2 witness: an object built by inserting b then a (ids 0 and 1): the
emitted id order is [1, 0], i.e. a before b. -/
theorem C2_object_field_ids_sorted_by_name_witness :
    ((sortFieldsByName (MetadataBuilder.extendNames mdDefault ["b", "a"])
        (ObjectState.mk [(0, 0), (1, 1)] [4, 8] []).fields).map (fun p => p.1)).Chain'
        (fun i j => strLt ((MetadataBuilder.extendNames mdDefault ["b", "a"]).field_name i)
          ((MetadataBuilder.extendNames mdDefault ["b", "a"]).field_name j) = true)
    ∧ (PState.variantP [2, 2, 1, 0, 1, 0, 2, 4, 8]).buf
      = (PState.variantP []).buf
        ++ object_header (decide (255 < (ObjectState.mk [(0, 0), (1, 1)] [4, 8] []).fields.length))
            (int_size (((ObjectState.mk [(0, 0), (1, 1)] [4, 8] []).fields.map (fun p => p.1)).foldl max 0))
            (int_size (ObjectState.mk [(0, 0), (1, 1)] [4, 8] []).buffer.length)
        :: ((if decide (255 < (ObjectState.mk [(0, 0), (1, 1)] [4, 8] []).fields.length) = true
              then leBytes (ObjectState.mk [(0, 0), (1, 1)] [4, 8] []).fields.length 4
              else [(ObjectState.mk [(0, 0), (1, 1)] [4, 8] []).fields.length % 256])
          ++ ((sortFieldsByName (MetadataBuilder.extendNames mdDefault ["b", "a"])
                (ObjectState.mk [(0, 0), (1, 1)] [4, 8] []).fields).map (fun p => p.1)).flatMap
              (fun i => leBytes i (int_size (((ObjectState.mk [(0, 0), (1, 1)] [4, 8] []).fields.map (fun p => p.1)).foldl max 0)))
          ++ ((sortFieldsByName (MetadataBuilder.extendNames mdDefault ["b", "a"])
                (ObjectState.mk [(0, 0), (1, 1)] [4, 8] []).fields).map (fun p => p.2)).flatMap
              (fun o => leBytes o (int_size (ObjectState.mk [(0, 0), (1, 1)] [4, 8] []).buffer.length))
          ++ leBytes (ObjectState.mk [(0, 0), (1, 1)] [4, 8] []).buffer.length
              (int_size (ObjectState.mk [(0, 0), (1, 1)] [4, 8] []).buffer.length)
          ++ (ObjectState.mk [(0, 0), (1, 1)] [4, 8] []).buffer) :=
  C2_object_field_ids_sorted_by_name false (ObjectState.mk [(0, 0), (1, 1)] [4, 8] [])
    (MetadataBuilder.extendNames mdDefault ["b", "a"]) (.variantP [])
    (.variantP [2, 2, 1, 0, 1, 0, 2, 4, 8]) (MetadataBuilder.extendNames mdDefault ["b", "a"])
    (by decide) (by decide) (by decide) rfl

/-! ## Claim C4 -/

/-- The dictionary only grows: the new field names extend the old ones, and
freedom from duplicates is preserved. -/
def mbGrows (mb mb' : MetadataBuilder) : Prop :=
  (∃ t, mb'.field_names = mb.field_names ++ t)
  ∧ (mb.field_names.Nodup → mb'.field_names.Nodup)

theorem mbGrows_refl (mb : MetadataBuilder) : mbGrows mb mb :=
  ⟨⟨[], by simp⟩, id⟩

theorem mbGrows_trans {a b c : MetadataBuilder} (h1 : mbGrows a b) (h2 : mbGrows b c) :
    mbGrows a c := by
  obtain ⟨⟨t1, ht1⟩, hn1⟩ := h1
  obtain ⟨⟨t2, ht2⟩, hn2⟩ := h2
  exact ⟨⟨t1 ++ t2, by rw [ht2, ht1, List.append_assoc]⟩, fun h => hn2 (hn1 h)⟩

theorem findIdx?_none_not_mem {f : String} {l : List String}
    (h : l.findIdx? (· == f) = none) : f ∉ l := by
  intro hmem
  obtain ⟨i, hi⟩ := mem_findIdx?_beq f l hmem
  rw [h] at hi
  exact absurd hi (by simp)

theorem getD_mem_of_lt (l : List String) (i : Nat) (h : i < l.length) :
    l.getD i "" ∈ l := by
  rw [List.getD_eq_getElem l "" h]
  exact l.getElem_mem h

theorem upsert_not_mem {mb : MetadataBuilder} {f : String}
    (h : f ∉ mb.field_names) :
    mb.upsert_field_name f
      = (mb.field_names.length,
          { mb with field_names := mb.field_names ++ [f],
                    is_sorted :=
                      (mb.field_names ++ [f]).length == 1
                      || (mb.is_sorted
                        && strLt ((mb.field_names ++ [f]).getD ((mb.field_names ++ [f]).length - 2) "")
                             ((mb.field_names ++ [f]).getD ((mb.field_names ++ [f]).length - 1) "")) }) := by
  unfold MetadataBuilder.upsert_field_name
  cases hf : mb.field_names.findIdx? (· == f) with
  | some id =>
    obtain ⟨hlt, hgd⟩ := findIdx?_beq_spec f mb.field_names id hf
    exact absurd (hgd ▸ getD_mem_of_lt _ _ hlt) h
  | none => rfl

theorem upsert_mbGrows (mb : MetadataBuilder) (f : String) :
    mbGrows mb (mb.upsert_field_name f).2 := by
  unfold MetadataBuilder.upsert_field_name
  cases hf : mb.field_names.findIdx? (· == f) with
  | some id => exact mbGrows_refl mb
  | none =>
    refine ⟨⟨[f], rfl⟩, fun hnd => ?_⟩
    simp only [List.nodup_append, List.nodup_cons, List.not_mem_nil, not_false_iff,
      List.nodup_nil]
    exact ⟨hnd, by simp, by
      intro a ha hb
      simp at hb
      subst hb
      exact findIdx?_none_not_mem hf ha⟩

@[simp] theorem objInsertPre_snd (validate : Bool) (st : ObjectState)
    (mb : MetadataBuilder) (key : String) :
    (objInsertPre validate st mb key).2 = (mb.upsert_field_name key).2 := rfl

theorem finishP_mbGrows (ps : PState) (mb : MetadataBuilder) (so : Nat) :
    mbGrows mb (ps.finishP mb so).2 := by
  cases ps with
  | variantP b => exact mbGrows_refl mb
  | listP b o => exact mbGrows_refl mb
  | objectP b f k =>
    simp only [PState.finishP]
    exact upsert_mbGrows mb k

theorem list_finish_mbGrows (offsets lbuf : List Nat) (mb : MetadataBuilder)
    (ps : PState) : mbGrows mb (list_finish offsets lbuf mb ps).2 := by
  unfold list_finish
  exact finishP_mbGrows _ mb _

theorem object_finish_ok_mbGrows {validate : Bool} {st : ObjectState}
    {mb : MetadataBuilder} {ps ps' : PState} {mb' : MetadataBuilder}
    (h : object_finish validate st mb ps = .ok (ps', mb')) : mbGrows mb mb' := by
  rw [object_finish] at h
  split at h
  · simp at h
  · rw [Except.ok.injEq] at h
    have := congrArg Prod.snd h
    simp only [] at this
    rw [← this]
    exact finishP_mbGrows _ mb _

theorem object_finish_error_of_dups {validate : Bool} {st : ObjectState}
    {mb : MetadataBuilder} {ps : PState} :
    (∃ e, object_finish validate st mb ps = .error e)
      ↔ (validate && !st.duplicate_fields.isEmpty) = true := by
  rw [object_finish]
  split
  next hcond => exact iff_of_true ⟨_, rfl⟩ hcond
  next hcond =>
    refine iff_of_false ?_ hcond
    rintro ⟨e, he⟩
    simp at he

/-- The re-append walker only grows the shared dictionary. -/
theorem walker_mbGrows : ∀ (v : Variant) (buf : List Nat) (mb : MetadataBuilder),
    mbGrows mb (try_append_variant v buf mb).2.2 := by
  apply try_append_variant.induct
    (fun v buf mb => mbGrows mb (try_append_variant v buf mb).2.2)
    (fun vs offs lbuf mb => mbGrows mb (listAppendAll vs offs lbuf mb).2.2.2)
    (fun pairs st mb => mbGrows mb (objInsertAll pairs st mb).2.2)
  case _ => intro buf mb; simp only [try_append_variant]; exact mbGrows_refl mb
  case _ => intro buf mb; simp only [try_append_variant]; exact mbGrows_refl mb
  case _ => intro buf mb; simp only [try_append_variant]; exact mbGrows_refl mb
  case _ => intro v buf mb; simp only [try_append_variant]; exact mbGrows_refl mb
  case _ => intro v buf mb; simp only [try_append_variant]; exact mbGrows_refl mb
  case _ => intro v buf mb; simp only [try_append_variant]; exact mbGrows_refl mb
  case _ => intro v buf mb; simp only [try_append_variant]; exact mbGrows_refl mb
  case _ => intro d buf mb; simp only [try_append_variant]; exact mbGrows_refl mb
  case _ => intro t buf mb; simp only [try_append_variant]; exact mbGrows_refl mb
  case _ => intro t buf mb; simp only [try_append_variant]; exact mbGrows_refl mb
  case _ => intro sc i buf mb; simp only [try_append_variant]; exact mbGrows_refl mb
  case _ => intro sc i buf mb; simp only [try_append_variant]; exact mbGrows_refl mb
  case _ => intro sc i buf mb; simp only [try_append_variant]; exact mbGrows_refl mb
  case _ => intro bits buf mb; simp only [try_append_variant]; exact mbGrows_refl mb
  case _ => intro bits buf mb; simp only [try_append_variant]; exact mbGrows_refl mb
  case _ => intro bs buf mb; simp only [try_append_variant]; exact mbGrows_refl mb
  case _ => intro s buf mb; simp only [try_append_variant]; exact mbGrows_refl mb
  case _ => intro s buf mb; simp only [try_append_variant]; exact mbGrows_refl mb
  case _ =>
    intro fs buf mb sorted e fst mb' hEq ih
    have : (try_append_variant (.object fs) buf mb).2.2 = mb' := by
      simp only [try_append_variant, hEq]
    rw [this]
    have h2 := ih
    rw [hEq] at h2
    exact h2
  case _ =>
    intro fs buf mb sorted st mb' hEq e hFin ih
    have : (try_append_variant (.object fs) buf mb).2.2 = mb' := by
      simp only [try_append_variant, hEq, hFin]
    rw [this]
    have h2 := ih
    rw [hEq] at h2
    exact h2
  case _ =>
    intro fs buf mb sorted st mb' hEq ps mb'' hFin ih
    have : (try_append_variant (.object fs) buf mb).2.2 = mb'' := by
      simp only [try_append_variant, hEq, hFin]
    rw [this]
    have h2 := ih
    rw [hEq] at h2
    exact mbGrows_trans h2 (object_finish_ok_mbGrows hFin)
  case _ =>
    intro es buf mb e fst fst1 mb' hEq ih
    have : (try_append_variant (.listV es) buf mb).2.2 = mb' := by
      simp only [try_append_variant, hEq]
    rw [this]
    have h2 := ih
    rw [hEq] at h2
    exact h2
  case _ =>
    intro es buf mb offsets lbuf mb' hEq ps mb'' hFin ih
    have : (try_append_variant (.listV es) buf mb).2.2 = mb'' := by
      simp only [try_append_variant, hEq, hFin]
    rw [this]
    have h2 := ih
    rw [hEq] at h2
    refine mbGrows_trans h2 ?_
    have := list_finish_mbGrows offsets lbuf mb' (.variantP buf)
    rw [hFin] at this
    exact this
  case _ =>
    intro offsets lbuf mb
    simp only [listAppendAll]
    exact mbGrows_refl mb
  case _ =>
    intro v rest offsets lbuf mb e buf' mb2 hEq ih
    have : (listAppendAll (v :: rest) offsets lbuf mb).2.2.2 = mb2 := by
      simp only [listAppendAll, hEq]
    rw [this]
    have h2 := ih
    rw [hEq] at h2
    exact h2
  case _ =>
    intro v rest offsets lbuf mb offsets' buf' mb2 hEq ih1 ih2
    have : (listAppendAll (v :: rest) offsets lbuf mb).2.2.2
        = (listAppendAll rest offsets' buf' mb2).2.2.2 := by
      simp only [listAppendAll, hEq]
    rw [this]
    have h1 := ih1
    rw [hEq] at h1
    exact mbGrows_trans h1 ih2
  case _ =>
    intro st mb
    simp only [objInsertAll]
    exact mbGrows_refl mb
  case _ =>
    intro k v rest st mb p e buf' mb2 hEq ih
    have : (objInsertAll ((k, v) :: rest) st mb).2.2 = mb2 := by
      simp only [objInsertAll, hEq]
    rw [this]
    have h1 := ih
    rw [hEq] at h1
    exact mbGrows_trans (by rw [objInsertPre_snd]; exact upsert_mbGrows mb k) h1
  case _ =>
    intro k v rest st mb p buf' mb2 hEq ih1 ih2
    have : (objInsertAll ((k, v) :: rest) st mb).2.2
        = (objInsertAll rest { p.1 with buffer := buf' } mb2).2.2 := by
      simp only [objInsertAll, hEq]
    rw [this]
    have h1 := ih1
    rw [hEq] at h1
    exact mbGrows_trans (mbGrows_trans
      (by rw [objInsertPre_snd]; exact upsert_mbGrows mb k) h1) ih2

theorem LB.try_append_value_mbGrows (lb : LB) (v : Variant) :
    mbGrows lb.mb ((LB.try_append_value lb v).2).mb := by
  unfold LB.try_append_value
  exact walker_mbGrows v lb.buffer lb.mb

theorem OB.try_insert_mbGrows (validate : Bool) (ob : OB) (key : String) (v : Variant) :
    mbGrows ob.mb ((OB.try_insert validate ob key v).2).mb := by
  unfold OB.try_insert
  exact mbGrows_trans (upsert_mbGrows ob.mb key) (walker_mbGrows v _ _)

theorem LB.finishL_mbGrows (lb : LB) : mbGrows lb.mb lb.finishL.2 :=
  list_finish_mbGrows lb.offsets lb.buffer lb.mb lb.parent

/-- The builder operation runners only grow the shared dictionary. -/
theorem runner_mbGrows (validate : Bool) : ∀ n : Nat,
    (∀ (ops : List LOp) (lb : LB), sizeOf ops ≤ n →
      mbGrows lb.mb (runL validate lb ops).mb)
    ∧ (∀ (op : LOp) (lb : LB), sizeOf op ≤ n →
      mbGrows lb.mb (applyL validate lb op).mb)
    ∧ (∀ (ops : List OOp) (ob : OB), sizeOf ops ≤ n →
      mbGrows ob.mb (runO validate ob ops).mb)
    ∧ (∀ (op : OOp) (ob : OB), sizeOf op ≤ n →
      mbGrows ob.mb (applyO validate ob op).mb) := by
  intro n
  induction n using Nat.strong_induction_on with
  | _ n ih =>
    have hL : ∀ (op : LOp) (lb : LB), sizeOf op ≤ n →
        mbGrows lb.mb (applyL validate lb op).mb := by
      intro op lb hsz
      cases op with
      | append v =>
        rw [applyL]
        exact LB.try_append_value_mbGrows lb v
      | nlist ops fin =>
        have hops : sizeOf ops < n := by
          simp at hsz
          omega
        have hchild := ((ih (sizeOf ops) hops).1 ops (lbSpawnL lb) (le_refl _))
        rw [applyL]
        split
        · split
          next heq =>
            refine mbGrows_trans hchild ?_
            have := LB.finishL_mbGrows (runL validate (lbSpawnL lb) ops)
            rw [heq] at this
            exact this
          next heq =>
            refine mbGrows_trans hchild ?_
            have := LB.finishL_mbGrows (runL validate (lbSpawnL lb) ops)
            rw [heq] at this
            exact this
        · split <;> exact hchild
      | nobj ops fin =>
        have hops : sizeOf ops < n := by
          simp at hsz
          omega
        have hchild := ((ih (sizeOf ops) hops).2.2.1 ops (obSpawnL lb) (le_refl _))
        rw [applyL]
        split
        · split
          next heq =>
            exact mbGrows_trans hchild (object_finish_ok_mbGrows heq)
          next heq =>
            exact mbGrows_trans hchild (object_finish_ok_mbGrows heq)
          next e heq =>
            split <;> exact hchild
        · split <;> exact hchild
    have hO : ∀ (op : OOp) (ob : OB), sizeOf op ≤ n →
        mbGrows ob.mb (applyO validate ob op).mb := by
      intro op ob hsz
      cases op with
      | ins key v =>
        rw [applyO]
        exact OB.try_insert_mbGrows validate ob key v
      | nlist key ops fin =>
        have hops : sizeOf ops < n := by
          simp at hsz
          omega
        have hchild := ((ih (sizeOf ops) hops).1 ops (lbSpawnO ob key) (le_refl _))
        rw [applyO]
        split
        · split
          next heq =>
            refine mbGrows_trans hchild ?_
            have := LB.finishL_mbGrows (runL validate (lbSpawnO ob key) ops)
            rw [heq] at this
            exact this
          next heq =>
            refine mbGrows_trans hchild ?_
            have := LB.finishL_mbGrows (runL validate (lbSpawnO ob key) ops)
            rw [heq] at this
            exact this
        · split <;> exact hchild
      | nobj key ops fin =>
        have hops : sizeOf ops < n := by
          simp at hsz
          omega
        have hchild := ((ih (sizeOf ops) hops).2.2.1 ops (obSpawnO ob key) (le_refl _))
        rw [applyO]
        split
        · split
          next heq =>
            exact mbGrows_trans hchild (object_finish_ok_mbGrows heq)
          next heq =>
            exact mbGrows_trans hchild (object_finish_ok_mbGrows heq)
          next e heq =>
            split <;> exact hchild
        · split <;> exact hchild
    refine ⟨?_, hL, ?_, hO⟩
    · intro ops lb hsz
      cases ops with
      | nil =>
        rw [runL]
        exact mbGrows_refl _
      | cons op rest =>
        rw [runL]
        have h1 : sizeOf op ≤ n := by
          simp at hsz
          omega
        have h2 : sizeOf rest < n := by
          simp at hsz
          omega
        exact mbGrows_trans (hL op lb h1)
          ((ih (sizeOf rest) h2).1 rest _ (le_refl _))
    · intro ops ob hsz
      cases ops with
      | nil =>
        rw [runO]
        exact mbGrows_refl _
      | cons op rest =>
        rw [runO]
        have h1 : sizeOf op ≤ n := by
          simp at hsz
          omega
        have h2 : sizeOf rest < n := by
          simp at hsz
          omega
        exact mbGrows_trans (hO op ob h1)
          ((ih (sizeOf rest) h2).2.2.1 rest _ (le_refl _))

theorem runO_mbGrows (validate : Bool) (ops : List OOp) (ob : OB) :
    mbGrows ob.mb (runO validate ob ops).mb :=
  (runner_mbGrows validate (sizeOf ops)).2.2.1 ops ob (le_refl _)

theorem runL_mbGrows (validate : Bool) (ops : List LOp) (lb : LB) :
    mbGrows lb.mb (runL validate lb ops).mb :=
  (runner_mbGrows validate (sizeOf ops)).1 ops lb (le_refl _)

/-- Scan of an operation sequence (with validation enabled) tracking which
field keys have been added to the object and which keys have been flagged as
duplicates: an insert flags its key exactly when the key is already present;
a finished nested list child adds its key; a finished nested object child
adds its key exactly when its own operations carry no flagged duplicate
(otherwise its finish fails and nothing is added); an abandoned child adds
nothing. -/
def dupScan : List String → List String → List OOp → List String × List String
  | added, flagged, [] => (added, flagged)
  | added, flagged, .ins k _ :: rest =>
    if k ∈ added then
      dupScan added (if k ∈ flagged then flagged else flagged ++ [k]) rest
    else dupScan (added ++ [k]) flagged rest
  | added, flagged, .nlist k _ fin :: rest =>
    if fin then dupScan (if k ∈ added then added else added ++ [k]) flagged rest
    else dupScan added flagged rest
  | added, flagged, .nobj k ops fin :: rest =>
    if fin && (dupScan [] [] ops).2.isEmpty then
      dupScan (if k ∈ added then added else added ++ [k]) flagged rest
    else dupScan added flagged rest
termination_by _ _ l => sizeOf l
decreasing_by
  all_goals (simp; try omega)

/-- The field keys currently present in an object builder, in field-map
order. -/
def addedOf (ob : OB) : List String :=
  ob.fields.map (fun p => ob.mb.field_names.getD p.1 "")

/-- The field keys currently flagged as duplicates, in flag order. -/
def flaggedOf (ob : OB) : List String :=
  ob.duplicate_fields.map (fun id => ob.mb.field_names.getD id "")

/-- Structural invariant of an object builder reachable in a real builder
tree: the dictionary has no duplicate names and the recorded ids are valid
indices. -/
def ObInv (ob : OB) : Prop :=
  ob.mb.field_names.Nodup
  ∧ (∀ id ∈ ob.fields.map (fun p => p.1), id < ob.mb.field_names.length)
  ∧ (∀ id ∈ ob.duplicate_fields, id < ob.mb.field_names.length)

theorem map_getD_append (ids : List Nat) (names t : List String)
    (hb : ∀ id ∈ ids, id < names.length) :
    ids.map (fun id => (names ++ t).getD id "")
      = ids.map (fun id => names.getD id "") := by
  apply List.map_congr_left
  intro id hid
  exact List.getD_append _ _ _ _ (hb id hid)

theorem imInsert_of_mem {m : List (Nat × Nat)} {k : Nat} (v : Nat)
    (h : k ∈ m.map (fun p => p.1)) :
    (imInsert m k v).2 = true
    ∧ ((imInsert m k v).1).map (fun p => p.1) = m.map (fun p => p.1) := by
  have hany : m.any (fun p => p.1 == k) = true := by
    rw [List.any_eq_true]
    obtain ⟨p, hp, hpk⟩ := List.mem_map.mp h
    exact ⟨p, hp, by simp [hpk]⟩
  unfold imInsert
  rw [if_pos hany]
  refine ⟨rfl, ?_⟩
  rw [List.map_map]
  apply List.map_congr_left
  intro p _
  by_cases hpk : (p.1 == k) = true
  · have hk : p.1 = k := by simpa using hpk
    simp [hpk, Function.comp, hk]
  · simp [hpk, Function.comp]

theorem imInsert_of_not_mem {m : List (Nat × Nat)} {k : Nat} (v : Nat)
    (h : k ∉ m.map (fun p => p.1)) :
    imInsert m k v = (m ++ [(k, v)], false) := by
  have hany : m.any (fun p => p.1 == k) = false := by
    rw [← Bool.not_eq_true, List.any_eq_true]
    rintro ⟨p, hp, hpk⟩
    exact h (List.mem_map.mpr ⟨p, hp, by simpa using hpk⟩)
  unfold imInsert
  rw [hany]
  rfl

theorem mem_map_getD_iff {names : List String} (hnd : names.Nodup)
    {ids : List Nat} (hb : ∀ id ∈ ids, id < names.length) {id : Nat}
    (hid : id < names.length) :
    names.getD id "" ∈ ids.map (fun i => names.getD i "") ↔ id ∈ ids := by
  constructor
  · intro hmem
    obtain ⟨i, hi, hieq⟩ := List.mem_map.mp hmem
    have := nodup_getD_inj names hnd (hb i hi) hid hieq
    rwa [← this]
  · exact fun h => List.mem_map_of_mem _ h

theorem upsert_of_mem {mb : MetadataBuilder} {f : String}
    (h : f ∈ mb.field_names) :
    (mb.upsert_field_name f).2 = mb
    ∧ (mb.upsert_field_name f).1 < mb.field_names.length
    ∧ mb.field_names.getD (mb.upsert_field_name f).1 "" = f := by
  obtain ⟨i, hi⟩ := mem_findIdx?_beq f mb.field_names h
  obtain ⟨hlt, hgd⟩ := findIdx?_beq_spec f mb.field_names i hi
  unfold MetadataBuilder.upsert_field_name
  rw [hi]
  exact ⟨rfl, hlt, hgd⟩

theorem list_finish_objectP (offsets lbuf : List Nat) (mb : MetadataBuilder)
    (b : List Nat) (f : List (Nat × Nat)) (k : String) :
    ∃ bb, list_finish offsets lbuf mb (.objectP b f k)
      = (.objectP bb (imInsert f (mb.upsert_field_name k).1 b.length).1 k,
         (mb.upsert_field_name k).2) :=
  ⟨_, rfl⟩

theorem object_finish_objectP (validate : Bool) (st : ObjectState)
    (mb : MetadataBuilder) (b : List Nat) (f : List (Nat × Nat)) (k : String)
    (h : (validate && !st.duplicate_fields.isEmpty) = false) :
    ∃ bb, object_finish validate st mb (.objectP b f k)
      = .ok (.objectP bb (imInsert f (mb.upsert_field_name k).1 b.length).1 k,
         (mb.upsert_field_name k).2) := by
  unfold object_finish
  rw [if_neg (show ¬((validate && !st.duplicate_fields.isEmpty) = true) by simp [h])]
  exact ⟨_, rfl⟩

theorem object_finish_error_case (validate : Bool) (st : ObjectState)
    (mb : MetadataBuilder) (ps : PState)
    (h : (validate && !st.duplicate_fields.isEmpty) = true) :
    object_finish validate st mb ps
      = .error (.invalidArgumentError ("Duplicate field keys detected: ["
          ++ String.intercalate ", "
              (stableSortBy strLe (st.duplicate_fields.map (fun id => mb.field_name id)))
          ++ "]")) := by
  rw [object_finish, if_pos (by simp [h])]

theorem imInsert_was_iff (m : List (Nat × Nat)) (k v : Nat) :
    (imInsert m k v).2 = true ↔ k ∈ m.map (fun p => p.1) := by
  by_cases h : k ∈ m.map (fun p => p.1)
  · rw [(imInsert_of_mem v h).1]
    simp [h]
  · rw [imInsert_of_not_mem v h]
    simp [h]

theorem addedOf_eq (o : OB) :
    addedOf o = (o.fields.map (fun p => p.1)).map
      (fun i => o.mb.field_names.getD i "") := by
  rw [addedOf, List.map_map]
  rfl

theorem upsert_key_cases (mb : MetadataBuilder) (key : String)
    (hnd : mb.field_names.Nodup) (ids : List Nat)
    (hb : ∀ id ∈ ids, id < mb.field_names.length) :
    ((mb.upsert_field_name key).1 ∈ ids
        ↔ key ∈ ids.map (fun i => mb.field_names.getD i ""))
    ∧ (mb.upsert_field_name key).1 < (mb.upsert_field_name key).2.field_names.length
    ∧ (mb.upsert_field_name key).2.field_names.getD (mb.upsert_field_name key).1 "" = key
    ∧ mbGrows mb (mb.upsert_field_name key).2
    ∧ ((mb.upsert_field_name key).1 ∈ ids →
        (mb.upsert_field_name key).2 = mb
        ∧ (mb.upsert_field_name key).1 < mb.field_names.length
        ∧ mb.field_names.getD (mb.upsert_field_name key).1 "" = key) := by
  by_cases hk : key ∈ mb.field_names
  · obtain ⟨hmb, hlt, hgd⟩ := upsert_of_mem hk
    refine ⟨?_, by rw [hmb]; exact hlt, by rw [hmb]; exact hgd, upsert_mbGrows mb key,
      fun _ => ⟨hmb, hlt, hgd⟩⟩
    have h := mem_map_getD_iff hnd hb hlt
    rw [hgd] at h
    exact h.symm
  · have he := upsert_not_mem hk
    rw [he]
    refine ⟨?_, by simp, by simp [List.getD_eq_getElem?_getD], ?_, ?_⟩
    · refine iff_of_false (fun h => absurd (hb _ h) (by omega)) ?_
      intro hmem
      obtain ⟨i, hi, hieq⟩ := List.mem_map.mp hmem
      exact hk (hieq ▸ getD_mem_of_lt _ _ (hb i hi))
    · refine ⟨⟨[key], rfl⟩, fun hn => ?_⟩
      rw [List.nodup_append]
      refine ⟨hn, by simp, ?_⟩
      intro a ha hb'
      simp at hb'
      exact hk (hb' ▸ ha)
    · intro h
      exact absurd (hb _ h) (by omega)

theorem insert_shape (ob ob' : OB) (key : String)
    (mbc mbf : MetadataBuilder) (off : Nat)
    (hg : mbGrows ob.mb mbc)
    (hgf : mbGrows (mbc.upsert_field_name key).2 mbf)
    (hnd : ob.mb.field_names.Nodup)
    (hbf : ∀ id ∈ ob.fields.map (fun p => p.1), id < ob.mb.field_names.length)
    (hf : ob'.fields = (imInsert ob.fields (mbc.upsert_field_name key).1 off).1)
    (hm : ob'.mb = mbf) :
    ob'.mb.field_names.Nodup
    ∧ (∀ id ∈ ob'.fields.map (fun p => p.1), id < ob'.mb.field_names.length)
    ∧ (∃ t, ob'.mb.field_names = ob.mb.field_names ++ t)
    ∧ addedOf ob' = (if key ∈ addedOf ob then addedOf ob else addedOf ob ++ [key])
    ∧ ((imInsert ob.fields (mbc.upsert_field_name key).1 off).2 = true
        ↔ key ∈ addedOf ob) := by
  obtain ⟨⟨t1, ht1⟩, hn1⟩ := hg
  have hndc : mbc.field_names.Nodup := hn1 hnd
  have hbc : ∀ id ∈ ob.fields.map (fun p => p.1), id < mbc.field_names.length := by
    intro id hid
    have := hbf id hid
    rw [ht1, List.length_append]
    omega
  obtain ⟨hiff, hfidlt, hfidgd, hgu, _⟩ :=
    upsert_key_cases mbc key hndc (ob.fields.map (fun p => p.1)) hbc
  obtain ⟨⟨t2, ht2⟩, hn2⟩ := hgu
  obtain ⟨⟨t3, ht3⟩, hn3⟩ := hgf
  have hfinal : mbf.field_names = ob.mb.field_names ++ (t1 ++ t2 ++ t3) := by
    rw [ht3, ht2, ht1]
    simp [List.append_assoc]
  have hacb : addedOf ob = (ob.fields.map (fun p => p.1)).map
      (fun i => mbc.field_names.getD i "") := by
    rw [addedOf_eq, ht1, map_getD_append _ _ _ hbf]
  have hiff' : (mbc.upsert_field_name key).1 ∈ ob.fields.map (fun p => p.1)
      ↔ key ∈ addedOf ob := by
    rw [hacb]
    exact hiff
  have hmapf : (ob.fields.map (fun p => p.1)).map (fun i => mbf.field_names.getD i "")
      = addedOf ob := by
    rw [hfinal, map_getD_append _ _ _ hbf, addedOf_eq]
  refine ⟨?_, ?_, ?_, ?_, ?_⟩
  · rw [hm]
    exact hn3 (hn2 hndc)
  · intro id hid
    rw [hf] at hid
    rw [hm, hfinal, List.length_append]
    by_cases hka : (mbc.upsert_field_name key).1 ∈ ob.fields.map (fun p => p.1)
    · rw [(imInsert_of_mem off hka).2] at hid
      have := hbf id hid
      omega
    · rw [imInsert_of_not_mem off hka] at hid
      rw [List.map_append, List.mem_append] at hid
      rcases hid with hid | hid
      · have := hbf id hid
        omega
      · simp at hid
        rw [hid]
        have h1 := hfidlt
        rw [ht2, ht1] at h1
        simp [List.length_append] at h1 ⊢
        omega
  · exact ⟨t1 ++ t2 ++ t3, by rw [hm]; exact hfinal⟩
  · by_cases hka : key ∈ addedOf ob
    · rw [if_pos hka]
      have hfid : (mbc.upsert_field_name key).1 ∈ ob.fields.map (fun p => p.1) :=
        hiff'.mpr hka
      rw [addedOf_eq, hf, (imInsert_of_mem off hfid).2, hm, hmapf]
    · rw [if_neg hka]
      have hfid : (mbc.upsert_field_name key).1 ∉ ob.fields.map (fun p => p.1) :=
        fun h => hka (hiff'.mp h)
      rw [addedOf_eq, hf, imInsert_of_not_mem off hfid]
      simp only [List.map_append, List.map_cons, List.map_nil]
      have hlast : mbf.field_names.getD (mbc.upsert_field_name key).1 "" = key := by
        rw [ht3, List.getD_append _ _ _ _ hfidlt]
        exact hfidgd
      rw [hm, hlast, hmapf]
  · rw [imInsert_was_iff]
    exact hiff'

theorem mb_swap_step (ob : OB) (mbc : MetadataBuilder) (hg : mbGrows ob.mb mbc)
    (hinv : ObInv ob) :
    ∀ (ob' : OB), ob'.fields = ob.fields → ob'.mb = mbc →
      ob'.duplicate_fields = ob.duplicate_fields →
      ObInv ob' ∧ addedOf ob' = addedOf ob ∧ flaggedOf ob' = flaggedOf ob := by
  obtain ⟨⟨t, ht⟩, hn⟩ := hg
  obtain ⟨hnd, hbf, hbd⟩ := hinv
  intro ob' hf hm hd
  refine ⟨⟨by rw [hm]; exact hn hnd, ?_, ?_⟩, ?_, ?_⟩
  · intro id hid
    rw [hf] at hid
    rw [hm, ht, List.length_append]
    have := hbf id hid
    omega
  · intro id hid
    rw [hd] at hid
    rw [hm, ht, List.length_append]
    have := hbd id hid
    omega
  · rw [addedOf_eq, addedOf_eq, hf, hm, ht, map_getD_append _ _ _ hbf]
  · rw [flaggedOf, flaggedOf, hd, hm, ht, map_getD_append _ _ _ hbd]

theorem reinstall_step (ob : OB) (key : String) (mbc : MetadataBuilder)
    (hg : mbGrows ob.mb mbc) (hinv : ObInv ob) (off : Nat) :
    ∀ (ob' : OB),
      ob'.fields = (imInsert ob.fields (mbc.upsert_field_name key).1 off).1 →
      ob'.mb = (mbc.upsert_field_name key).2 →
      ob'.duplicate_fields = ob.duplicate_fields →
      ObInv ob'
      ∧ addedOf ob' = (if key ∈ addedOf ob then addedOf ob else addedOf ob ++ [key])
      ∧ flaggedOf ob' = flaggedOf ob := by
  obtain ⟨hnd, hbf, hbd⟩ := hinv
  intro ob' hf hm hd
  obtain ⟨hnd', hbf', ⟨t, ht⟩, hadd, _⟩ :=
    insert_shape ob ob' key mbc (mbc.upsert_field_name key).2 off hg
      (mbGrows_refl _) hnd hbf hf hm
  refine ⟨⟨hnd', hbf', ?_⟩, hadd, ?_⟩
  · intro id hid
    rw [hd] at hid
    rw [ht, List.length_append]
    have := hbd id hid
    omega
  · rw [flaggedOf, flaggedOf, hd, ht, map_getD_append _ _ _ hbd]

theorem try_insert_dupStep (ob : OB) (key : String) (v : Variant)
    (hinv : ObInv ob) :
    ObInv (OB.try_insert true ob key v).2
    ∧ addedOf (OB.try_insert true ob key v).2
        = (if key ∈ addedOf ob then addedOf ob else addedOf ob ++ [key])
    ∧ flaggedOf (OB.try_insert true ob key v).2
        = (if key ∈ addedOf ob then
            (if key ∈ flaggedOf ob then flaggedOf ob else flaggedOf ob ++ [key])
           else flaggedOf ob) := by
  obtain ⟨hnd, hbf, hbd⟩ := hinv
  have h1 : (OB.try_insert true ob key v).2.fields
      = (imInsert ob.fields ((ob.mb.upsert_field_name key).1) ob.buffer.length).1 := rfl
  have h2 : (OB.try_insert true ob key v).2.mb
      = (try_append_variant v ob.buffer ((ob.mb.upsert_field_name key).2)).2.2 := rfl
  have h3 : (OB.try_insert true ob key v).2.duplicate_fields
      = (if (imInsert ob.fields ((ob.mb.upsert_field_name key).1) ob.buffer.length).2
            && true then
          (if (ob.mb.upsert_field_name key).1 ∈ ob.duplicate_fields then
            ob.duplicate_fields
           else ob.duplicate_fields ++ [(ob.mb.upsert_field_name key).1])
         else ob.duplicate_fields) := rfl
  obtain ⟨hnd', hbf', ⟨t, ht⟩, hadd, hwas⟩ :=
    insert_shape ob (OB.try_insert true ob key v).2 key ob.mb
      (try_append_variant v ob.buffer ((ob.mb.upsert_field_name key).2)).2.2
      ob.buffer.length (mbGrows_refl _)
      (walker_mbGrows v ob.buffer ((ob.mb.upsert_field_name key).2)) hnd hbf h1 h2
  obtain ⟨hiff, _, _, _, hmem⟩ := upsert_key_cases ob.mb key hnd
    (ob.fields.map (fun p => p.1)) hbf
  by_cases hka : key ∈ addedOf ob
  · have hwast : (imInsert ob.fields ((ob.mb.upsert_field_name key).1)
        ob.buffer.length).2 = true := hwas.mpr hka
    have hfid : (ob.mb.upsert_field_name key).1 ∈ ob.fields.map (fun p => p.1) := by
      rw [hiff, ← addedOf_eq]
      exact hka
    obtain ⟨_, hlt, hgd⟩ := hmem hfid
    have hbij : key ∈ flaggedOf ob
        ↔ (ob.mb.upsert_field_name key).1 ∈ ob.duplicate_fields := by
      have h := mem_map_getD_iff hnd hbd hlt
      rw [hgd] at h
      rw [flaggedOf]
      exact h
    refine ⟨⟨hnd', hbf', ?_⟩, by rw [hadd], ?_⟩
    · intro id hid
      rw [h3, hwast] at hid
      rw [ht, List.length_append]
      simp at hid
      split at hid
      · have := hbd id hid
        omega
      · simp at hid
        rcases hid with hid | hid
        · have := hbd id hid
          omega
        · rw [hid]
          omega
    · rw [if_pos hka, flaggedOf, h3, hwast]
      simp only [Bool.and_self, if_true]
      by_cases hkd : (ob.mb.upsert_field_name key).1 ∈ ob.duplicate_fields
      · rw [if_pos hkd, if_pos (hbij.mpr hkd), flaggedOf, ht,
          map_getD_append _ _ _ hbd]
      · rw [if_neg hkd, if_neg (fun h => hkd (hbij.mp h)), flaggedOf, ht]
        have hbd' : ∀ id ∈ ob.duplicate_fields ++ [(ob.mb.upsert_field_name key).1],
            id < ob.mb.field_names.length := by
          intro id hid
          simp at hid
          rcases hid with hid | hid
          · exact hbd id hid
          · rw [hid]
            exact hlt
        rw [map_getD_append _ _ _ hbd']
        simp only [List.map_append, List.map_cons, List.map_nil]
        rw [hgd]
  · have hwasf : (imInsert ob.fields ((ob.mb.upsert_field_name key).1)
        ob.buffer.length).2 = false := by
      rw [← Bool.not_eq_true, hwas]
      exact hka
    have hd3 : (OB.try_insert true ob key v).2.duplicate_fields
        = ob.duplicate_fields := by
      rw [h3, hwasf]
      simp
    refine ⟨⟨hnd', hbf', ?_⟩, by rw [hadd], ?_⟩
    · intro id hid
      rw [hd3] at hid
      rw [ht, List.length_append]
      have := hbd id hid
      omega
    · rw [if_neg hka, flaggedOf, hd3, ht, map_getD_append _ _ _ hbd]
      rw [flaggedOf]

/-- One step of the duplicate scan. -/
def dupStep (added flagged : List String) : OOp → List String × List String
  | .ins k _ =>
    if k ∈ added then (added, if k ∈ flagged then flagged else flagged ++ [k])
    else (added ++ [k], flagged)
  | .nlist k _ fin =>
    if fin then ((if k ∈ added then added else added ++ [k]), flagged)
    else (added, flagged)
  | .nobj k ops fin =>
    if fin && (dupScan [] [] ops).2.isEmpty then
      ((if k ∈ added then added else added ++ [k]), flagged)
    else (added, flagged)

theorem dupScan_cons (added flagged : List String) (op : OOp) (rest : List OOp) :
    dupScan added flagged (op :: rest)
      = dupScan (dupStep added flagged op).1 (dupStep added flagged op).2 rest := by
  cases op with
  | ins k v =>
    rw [dupScan]
    simp only [dupStep]
    split <;> rfl
  | nlist k ops fin =>
    rw [dupScan]
    simp only [dupStep]
    split <;> rfl
  | nobj k ops fin =>
    rw [dupScan]
    simp only [dupStep]
    split <;> rfl

/-- Joint invariant of the operation runners with validation enabled: the
object's key list and duplicate-flag list (read through the shared
dictionary) evolve exactly as the specification-side duplicate scan says,
and the structural invariant is preserved. -/
theorem applyO_runO_dupScan : ∀ n : Nat,
    (∀ (op : OOp) (ob : OB), sizeOf op ≤ n → ObInv ob →
      ObInv (applyO true ob op)
      ∧ addedOf (applyO true ob op) = (dupStep (addedOf ob) (flaggedOf ob) op).1
      ∧ flaggedOf (applyO true ob op) = (dupStep (addedOf ob) (flaggedOf ob) op).2)
    ∧ (∀ (ops : List OOp) (ob : OB), sizeOf ops ≤ n → ObInv ob →
      ObInv (runO true ob ops)
      ∧ addedOf (runO true ob ops) = (dupScan (addedOf ob) (flaggedOf ob) ops).1
      ∧ flaggedOf (runO true ob ops) = (dupScan (addedOf ob) (flaggedOf ob) ops).2) := by
  intro n
  induction n using Nat.strong_induction_on with
  | _ n IH =>
    have hO : ∀ (op : OOp) (ob : OB), sizeOf op ≤ n → ObInv ob →
        ObInv (applyO true ob op)
        ∧ addedOf (applyO true ob op) = (dupStep (addedOf ob) (flaggedOf ob) op).1
        ∧ flaggedOf (applyO true ob op) = (dupStep (addedOf ob) (flaggedOf ob) op).2 := by
      intro op ob hsz hinv
      cases op with
      | ins key v =>
        rw [applyO]
        obtain ⟨h1, h2, h3⟩ := try_insert_dupStep ob key v hinv
        refine ⟨h1, ?_, ?_⟩
        · rw [h2]
          simp only [dupStep]
          by_cases hka : key ∈ addedOf ob
          · rw [if_pos hka, if_pos hka]
          · rw [if_neg hka, if_neg hka]
        · rw [h3]
          simp only [dupStep]
          by_cases hka : key ∈ addedOf ob
          · rw [if_pos hka, if_pos hka]
          · rw [if_neg hka, if_neg hka]
      | nlist key cops fin =>
        have hcp : (runL true (lbSpawnO ob key) cops).parent
            = PState.objectP ob.buffer ob.fields key := runL_parent true cops _
        have hgc : mbGrows ob.mb (runL true (lbSpawnO ob key) cops).mb :=
          runL_mbGrows true cops _
        have hfl0 : (runL true (lbSpawnO ob key) cops).finishL
            = list_finish (runL true (lbSpawnO ob key) cops).offsets
                (runL true (lbSpawnO ob key) cops).buffer
                (runL true (lbSpawnO ob key) cops).mb
                (PState.objectP ob.buffer ob.fields key) := by
          rw [← hcp]
          rfl
        obtain ⟨bb, hfl⟩ := list_finish_objectP
          (runL true (lbSpawnO ob key) cops).offsets
          (runL true (lbSpawnO ob key) cops).buffer
          (runL true (lbSpawnO ob key) cops).mb
          ob.buffer ob.fields key
        rw [hfl] at hfl0
        cases fin with
        | true =>
          rw [applyO, if_pos rfl, hfl0]
          exact reinstall_step ob key (runL true (lbSpawnO ob key) cops).mb hgc hinv
            ob.buffer.length _ rfl rfl rfl
        | false =>
          rw [applyO, if_neg (by simp), hcp]
          exact mb_swap_step ob (runL true (lbSpawnO ob key) cops).mb hgc hinv
            _ rfl rfl rfl
      | nobj key cops fin =>
        have hcops : sizeOf cops < n := by
          simp at hsz
          omega
        have hcp : (runO true (obSpawnO ob key) cops).parent
            = PState.objectP ob.buffer ob.fields key := runO_parent true cops _
        have hgc : mbGrows ob.mb (runO true (obSpawnO ob key) cops).mb :=
          runO_mbGrows true cops _
        have hinv0 : ObInv (obSpawnO ob key) := by
          refine ⟨hinv.1, ?_, ?_⟩ <;> (intro id hid; simp [obSpawnO] at hid)
        obtain ⟨hcinv, hcadd, hcflag⟩ := (IH (sizeOf cops) hcops).2 cops
          (obSpawnO ob key) (le_refl _) hinv0
        have hcadd0 : addedOf (obSpawnO ob key) = [] := rfl
        have hcflag0 : flaggedOf (obSpawnO ob key) = [] := rfl
        rw [hcadd0, hcflag0] at hcadd hcflag
        have hfo0 : OB.finishO true (runO true (obSpawnO ob key) cops)
            = object_finish true
                ⟨(runO true (obSpawnO ob key) cops).fields,
                  (runO true (obSpawnO ob key) cops).buffer,
                  (runO true (obSpawnO ob key) cops).duplicate_fields⟩
                (runO true (obSpawnO ob key) cops).mb
                (PState.objectP ob.buffer ob.fields key) := by
          rw [← hcp]
          rfl
        cases fin with
        | true =>
          by_cases hemp : (dupScan [] [] cops).2 = []
          · have hdups : (runO true (obSpawnO ob key) cops).duplicate_fields = [] := by
              have h := hcflag
              rw [hemp, flaggedOf, List.map_eq_nil_iff] at h
              exact h
            obtain ⟨bb, hok⟩ := object_finish_objectP true
              ⟨(runO true (obSpawnO ob key) cops).fields,
                (runO true (obSpawnO ob key) cops).buffer,
                (runO true (obSpawnO ob key) cops).duplicate_fields⟩
              ((runO true (obSpawnO ob key) cops).mb)
              ob.buffer ob.fields key (by simp [hdups])
            rw [hok] at hfo0
            rw [applyO, if_pos rfl, hfo0]
            have hres := reinstall_step ob key (runO true (obSpawnO ob key) cops).mb
              hgc hinv ob.buffer.length
              { ob with buffer := bb,
                        fields := (imInsert ob.fields
                          (((runO true (obSpawnO ob key) cops).mb.upsert_field_name
                            key).1) ob.buffer.length).1,
                        mb := ((runO true (obSpawnO ob key) cops).mb.upsert_field_name
                          key).2 }
              rfl rfl rfl
            simp only [dupStep, hemp, List.isEmpty_nil, Bool.and_true, if_true]
            exact hres
          · have hdups : (runO true (obSpawnO ob key) cops).duplicate_fields ≠ [] := by
              intro hnil
              apply hemp
              rw [← hcflag, flaggedOf, hnil]
              rfl
            have hemp' : (dupScan [] [] cops).2.isEmpty = false := by
              cases h : (dupScan [] [] cops).2 with
              | nil => exact absurd h hemp
              | cons a l => rfl
            have herr := object_finish_error_case true
              ⟨(runO true (obSpawnO ob key) cops).fields,
                (runO true (obSpawnO ob key) cops).buffer,
                (runO true (obSpawnO ob key) cops).duplicate_fields⟩
              ((runO true (obSpawnO ob key) cops).mb)
              (PState.objectP ob.buffer ob.fields key)
              (by simp [hdups])
            rw [herr] at hfo0
            rw [applyO, if_pos rfl, hfo0, hcp]
            have hres := mb_swap_step ob (runO true (obSpawnO ob key) cops).mb hgc hinv
              { ob with buffer := ob.buffer, fields := ob.fields,
                        mb := (runO true (obSpawnO ob key) cops).mb }
              rfl rfl rfl
            simp only [dupStep, hemp', Bool.and_false, if_false]
            exact hres
        | false =>
          rw [applyO, if_neg (by simp), hcp]
          exact mb_swap_step ob (runO true (obSpawnO ob key) cops).mb hgc hinv
            _ rfl rfl rfl
    refine ⟨hO, ?_⟩
    intro ops ob hsz hinv
    cases ops with
    | nil =>
      rw [runO, dupScan]
      exact ⟨hinv, rfl, rfl⟩
    | cons op rest =>
      rw [runO, dupScan_cons]
      have h1 : sizeOf op ≤ n := by
        simp at hsz
        omega
      have h2 : sizeOf rest < n := by
        simp at hsz
        omega
      obtain ⟨s1, s2, s3⟩ := hO op ob h1 hinv
      obtain ⟨m1, m2, m3⟩ := (IH (sizeOf rest) h2).2 rest (applyO true ob op)
        (le_refl _) s1
      rw [s2, s3] at m2 m3
      exact ⟨m1, m2, m3⟩

theorem runO_dupScan (ops : List OOp) (ob : OB) (hinv : ObInv ob) :
    ObInv (runO true ob ops)
    ∧ addedOf (runO true ob ops) = (dupScan (addedOf ob) (flaggedOf ob) ops).1
    ∧ flaggedOf (runO true ob ops) = (dupScan (addedOf ob) (flaggedOf ob) ops).2 :=
  (applyO_runO_dupScan (sizeOf ops)).2 ops ob (le_refl _) hinv

theorem object_finish_ok_of_no_dups (validate : Bool) (st : ObjectState)
    (mb : MetadataBuilder) (ps : PState)
    (h : (validate && !st.duplicate_fields.isEmpty) = false) :
    ∃ r, object_finish validate st mb ps = .ok r := by
  unfold object_finish
  rw [if_neg (show ¬((validate && !st.duplicate_fields.isEmpty) = true) by simp [h])]
  exact ⟨_, rfl⟩

/-- A top-level ObjectBuilder on a fresh VariantBuilder: the parent slot is
the builder's (empty) value buffer and the dictionary is empty. -/
def obFresh : OB :=
  { parent := PState.variantP [], mb := mdDefault, fields := [], buffer := [],
    duplicate_fields := [] }

theorem obFresh_inv : ObInv obFresh := by
  refine ⟨by simp [obFresh, mdDefault], ?_, ?_⟩ <;> (intro id hid; simp [obFresh] at hid)

/-- C4 counterexample: on a top-level object, insert the field a, then build
and finish a nested object child under the SAME key a (adding the key a to
the object a second time, through ParentState::finish).  With
validate_unique_fields enabled, finish nevertheless succeeds, refuting the
only-if direction of the claim: a key added more than once through a nested
builder under an already-used key is not detected. -/
theorem C4_counterexample :
    addedOf (runO true obFresh [OOp.ins "a" Variant.nullV]) = ["a"]
    ∧ (∃ r, OB.finishO true
        (runO true obFresh [OOp.ins "a" Variant.nullV, OOp.nobj "a" [] true])
        = Except.ok r) := by
  constructor
  · simp only [runO, applyO, OB.try_insert, objInsertPre, try_append_variant]
    decide
  · simp only [runO, applyO, OB.try_insert, objInsertPre, try_append_variant]
    exact ⟨_, rfl⟩

/-- C4 (amended): with validate_unique_fields enabled, an ObjectBuilder
driven by any sequence of operations fails its finish if and only if some
try_insert call found its key already present in the field map at insert
time (the duplicate scan flags it); keys re-added by finishing a nested
child under an already-used key are silently overwritten, not flagged.
When finish fails, the error displays as Invalid argument error: Duplicate
field keys detected: [names] with the flagged names sorted lexicographically
by byte order and joined by a comma and space. -/
theorem C4_duplicate_detection_characterized (ops : List OOp) (ob : OB)
    (hinv : ObInv ob) :
    ((∃ e, OB.finishO true (runO true ob ops) = .error e)
      ↔ (dupScan (addedOf ob) (flaggedOf ob) ops).2 ≠ [])
    ∧ (∀ e, OB.finishO true (runO true ob ops) = .error e →
        ArrowError.display e
          = "Invalid argument error: Duplicate field keys detected: ["
            ++ String.intercalate ", "
                (stableSortBy strLe (dupScan (addedOf ob) (flaggedOf ob) ops).2)
            ++ "]") := by
  obtain ⟨hinv', hadd, hflag⟩ := runO_dupScan ops ob hinv
  have hfo : OB.finishO true (runO true ob ops)
      = object_finish true
          ⟨(runO true ob ops).fields, (runO true ob ops).buffer,
            (runO true ob ops).duplicate_fields⟩
          (runO true ob ops).mb (runO true ob ops).parent := rfl
  have hmapflag : (runO true ob ops).duplicate_fields.map
      (fun id => ((runO true ob ops).mb).field_name id)
      = (dupScan (addedOf ob) (flaggedOf ob) ops).2 := hflag
  by_cases hdn : (runO true ob ops).duplicate_fields = []
  · have hscan : (dupScan (addedOf ob) (flaggedOf ob) ops).2 = [] := by
      rw [← hflag, flaggedOf, hdn]
      rfl
    obtain ⟨r, hr⟩ := object_finish_ok_of_no_dups true
      ⟨(runO true ob ops).fields, (runO true ob ops).buffer,
        (runO true ob ops).duplicate_fields⟩
      ((runO true ob ops).mb) ((runO true ob ops).parent)
      (by simp [hdn])
    rw [hr] at hfo
    constructor
    · rw [hscan]
      refine iff_of_false ?_ (by simp)
      rintro ⟨e, he⟩
      rw [hfo] at he
      exact absurd he (by simp)
    · intro e he
      rw [hfo] at he
      exact absurd he (by simp)
  · have herr := object_finish_error_case true
      ⟨(runO true ob ops).fields, (runO true ob ops).buffer,
        (runO true ob ops).duplicate_fields⟩
      ((runO true ob ops).mb) ((runO true ob ops).parent)
      (by simp [hdn])
    rw [herr] at hfo
    have hscan : (dupScan (addedOf ob) (flaggedOf ob) ops).2 ≠ [] := by
      intro hnil
      apply hdn
      rw [hnil, flaggedOf, List.map_eq_nil_iff] at hflag
      exact hflag
    constructor
    · exact iff_of_true ⟨_, hfo⟩ hscan
    · intro e he
      rw [hfo] at he
      rw [Except.error.injEq] at he
      rw [← he]
      rw [ArrowError.display, hmapflag]
      simp [← String.append_assoc]

/-- C4 witness: the amended characterization applied to a top-level object
receiving the key a twice through plain inserts. -/
theorem C4_duplicate_detection_characterized_witness :
    ObInv obFresh
    ∧ (((∃ e, OB.finishO true (runO true obFresh
          [OOp.ins "a" Variant.nullV, OOp.ins "a" Variant.booleanTrue])
          = .error e)
        ↔ (dupScan (addedOf obFresh) (flaggedOf obFresh)
            [OOp.ins "a" Variant.nullV, OOp.ins "a" Variant.booleanTrue]).2 ≠ [])
      ∧ (∀ e, OB.finishO true (runO true obFresh
            [OOp.ins "a" Variant.nullV, OOp.ins "a" Variant.booleanTrue])
            = .error e →
          ArrowError.display e
            = "Invalid argument error: Duplicate field keys detected: ["
              ++ String.intercalate ", "
                  (stableSortBy strLe (dupScan (addedOf obFresh) (flaggedOf obFresh)
                    [OOp.ins "a" Variant.nullV, OOp.ins "a" Variant.booleanTrue]).2)
              ++ "]")) :=
  ⟨obFresh_inv, C4_duplicate_detection_characterized
    [OOp.ins "a" Variant.nullV, OOp.ins "a" Variant.booleanTrue] obFresh obFresh_inv⟩

/-- C1: the round-trip claim fails at the wire level for large values
because the builder silently truncates size fields.  int_size caps the
offset width at 4 bytes and write_offset keeps only the low offset_size
bytes of the value, so when a list
payload reaches 2^32 bytes, ListBuilder::finish emits a trailing data_size
field that reads ZERO — byte-identical to the size field of an empty
payload — while still appending all 2^32 payload bytes; no error is
returned, the resulting blob is corrupt, and decoding it cannot yield the
original Variant. -/
theorem C1_truncated_data_size (offsets lbuf : List Nat) (mb : MetadataBuilder)
    (ps : PState) (h : lbuf.length = 2 ^ 32) :
    (list_finish offsets lbuf mb ps).1.buf
      = append_header ps.buf (array_header (decide (offsets.length > 255)) 4)
          (decide (offsets.length > 255)) offsets.length
        ++ offsets.flatMap (fun o => leBytes o 4)
        ++ leBytes 0 4 ++ lbuf := by
  unfold list_finish
  simp only [PState.buf_finishP, PState.buf_withBuf, h]
  rw [show int_size (2 ^ 32) = 4 from by decide,
    show leBytes (2 ^ 32) 4 = leBytes 0 4 from by decide]

/-- C1 witness: a list payload of exactly 2^32 zero bytes is stamped with a
zero data_size field. -/
theorem C1_truncated_data_size_witness :
    (List.replicate (2 ^ 32) (0 : Nat)).length = 2 ^ 32
    ∧ (list_finish [] (List.replicate (2 ^ 32) (0 : Nat)) mdDefault
          (PState.variantP [])).1.buf
      = append_header (PState.variantP ([] : List Nat)).buf
          (array_header (decide (([] : List Nat).length > 255)) 4)
          (decide (([] : List Nat).length > 255)) ([] : List Nat).length
        ++ ([] : List Nat).flatMap (fun o => leBytes o 4)
        ++ leBytes 0 4 ++ List.replicate (2 ^ 32) (0 : Nat) :=
  ⟨List.length_replicate _ _,
    C1_truncated_data_size [] (List.replicate (2 ^ 32) (0 : Nat)) mdDefault
      (PState.variantP []) (List.length_replicate _ _)⟩

/-- C6 witness: the invariants instantiated on the concrete upsert sequence
b then a. -/
theorem C6_upsert_field_name_invariants_witness :
    ((MetadataBuilder.extendNames mdDefault (["b"] ++ ["a"])).field_names.getD 0 ""
      = (MetadataBuilder.extendNames mdDefault ["b"]).field_names.getD 0 "")
    ∧ (((MetadataBuilder.extendNames mdDefault ["b", "a"]).upsert_field_name "a").2
        = MetadataBuilder.extendNames mdDefault ["b", "a"]
      ∧ (MetadataBuilder.extendNames mdDefault ["b", "a"]).field_names.getD
          ((MetadataBuilder.extendNames mdDefault ["b", "a"]).upsert_field_name "a").1 ""
        = "a")
    ∧ ((MetadataBuilder.extendNames mdDefault ["b", "a"]).is_sorted = true
        ↔ (MetadataBuilder.extendNames mdDefault ["b", "a"]).field_names ≠ []
          ∧ (MetadataBuilder.extendNames mdDefault ["b", "a"]).field_names.Chain' (fun a b => strLt a b = true))
    ∧ ((MetadataBuilder.extendNames mdDefault (["b", "a"] ++ ["c"])).is_sorted = false) :=
  ⟨C6_upsert_field_name_invariants.1 ["b"] ["a"] 0 (by decide),
   C6_upsert_field_name_invariants.2.1 _ "a" (by decide),
   C6_upsert_field_name_invariants.2.2.1 ["b", "a"],
   C6_upsert_field_name_invariants.2.2.2 ["b", "a"] ["c"] (by decide) (by decide)⟩

end VariantSpec
